import Mathlib

/-!
Verification development for the `translate_codex_stream.py` translation engine.

The Python source is shallowly embedded: Python `str` becomes `List Char`,
the regular expressions of the source are compiled by hand into explicit
leftmost-match scanners, `re.sub`'s semantics (scan the original string left
to right, replacements are not rescanned within one pass) is mirrored by
fuel-based scanners, and Python `dict`s become association lists that keep
insertion order.  Character classes follow the ASCII reading of the source's
regexes (`\w`, `\s`, `[A-Za-z]`, ...); all texts exercised by the claims are
within that fragment.
-/

namespace Codex

/-- Python strings are embedded as lists of characters. -/
abbrev LC := List Char

/-! ### Character classes (ASCII reading of the source's regex classes) -/

/-- Membership in Python's `\s` (ASCII part): space, tab, newline, carriage
return, vertical tab, form feed. -/
def isSpC (c : Char) : Bool :=
  c == ' ' || c == '\t' || c == '\n' || c == '\r' ||
    c == Char.ofNat 11 || c == Char.ofNat 12

/-- `[0-9]`. -/
def isDigitCh (c : Char) : Bool :=
  decide (48 ≤ c.toNat ∧ c.toNat ≤ 57)

/-- `[A-Z]`. -/
def isUpperCh (c : Char) : Bool :=
  decide (65 ≤ c.toNat ∧ c.toNat ≤ 90)

/-- `[a-z]`. -/
def isLowerCh (c : Char) : Bool :=
  decide (97 ≤ c.toNat ∧ c.toNat ≤ 122)

/-- `[A-Za-z]`. -/
def isAlphaCh (c : Char) : Bool :=
  isUpperCh c || isLowerCh c

/-- `[A-Za-z0-9]`. -/
def isAlnumCh (c : Char) : Bool :=
  isAlphaCh c || isDigitCh c

/-- Python's `\w` (ASCII part): `[A-Za-z0-9_]`. -/
def isWordCh (c : Char) : Bool :=
  isAlnumCh c || c == '_'

/-- ASCII lower-casing of one character (Python `str.lower`, ASCII part). -/
def lowCh (c : Char) : Char :=
  if isUpperCh c then Char.ofNat (c.toNat + 32) else c

/-- ASCII lower-casing of a string. -/
def lowStr (s : LC) : LC := s.map lowCh

/-- Python's `needle in haystack` on strings: contiguous-substring test. -/
def isInfixL (p : LC) : LC → Bool
  | [] => p.isEmpty
  | c :: cs => p.isPrefixOf (c :: cs) || isInfixL p cs

/-! ### `normalize_spaces` / `normalize_key` / `has_english` /
`is_plain_english_term` -/

/-- One step of `re.sub(r"\s+", " ", text)`: collapse every maximal
whitespace run to a single space.  `inRun` records whether the previous
character belonged to a run already replaced. -/
def collapseSp : Bool → LC → LC
  | _, [] => []
  | inRun, c :: cs =>
    if isSpC c then
      if inRun then collapseSp true cs else ' ' :: collapseSp true cs
    else c :: collapseSp false cs

/-- Python `str.strip()` (ASCII whitespace). -/
def stripStr (s : LC) : LC :=
  ((s.dropWhile (fun c => isSpC c)).reverse.dropWhile (fun c => isSpC c)).reverse

/-- `normalize_spaces`: collapse whitespace runs, then strip. -/
def normalizeSpaces (s : LC) : LC :=
  stripStr (collapseSp false s)

/-- `normalize_key`: `normalize_spaces` then lower-case. -/
def normalizeKey (s : LC) : LC :=
  lowStr (normalizeSpaces s)

/-- `has_english`: the text contains a Latin letter. -/
def hasEnglish (s : LC) : Bool :=
  s.any (fun c => isAlphaCh c)

/-- A character of the dictionary-source alphabet
`[A-Za-z0-9 \-_/.'&()+]`. -/
def isTermCh (c : Char) : Bool :=
  isAlnumCh c || c == ' ' || c == '-' || c == '_' || c == '/' || c == '.' ||
    c == Char.ofNat 39 || c == '&' || c == '(' || c == ')' || c == '+'

/-- `is_plain_english_term`: full match of
`[A-Za-z0-9][A-Za-z0-9 \-_/.'&()+]{0,127}`. -/
def isPlainEnglishTerm (s : LC) : Bool :=
  match s with
  | [] => false
  | c :: rest => isAlnumCh c && rest.all (fun d => isTermCh d) && decide (rest.length ≤ 127)

/-! ### Placeholders `⟪#i⟫` -/

/-- Decimal digit character for a value `< 10`. -/
def digitCh (d : Nat) : Char := Char.ofNat (48 + d)

/-- Decimal digits of `n`, least significant first; `fuel ≥ n` suffices. -/
def natDigitsRev : Nat → Nat → List Nat
  | 0, n => [n % 10]
  | fuel + 1, n => if n < 10 then [n] else n % 10 :: natDigitsRev fuel (n / 10)

/-- Decimal representation of `n` (Python `f"{n}"`). -/
def natRepr (n : Nat) : LC :=
  ((natDigitsRev n n).reverse).map digitCh

/-- The placeholder token `⟪#i⟫` produced by `_protect`'s `replacer`. -/
def ph (i : Nat) : LC :=
  '⟪' :: '#' :: (natRepr i ++ ['⟫'])

/-! ### Python `str.replace` (all non-overlapping occurrences, left to
right) -/

/-- `replaceAllF fuel s pat repl`: scan `s` left to right; wherever `pat` is
a prefix, emit `repl` and continue after it.  `fuel ≥ s.length` suffices
when `pat ≠ []`. -/
def replaceAllF (pat repl : LC) : Nat → LC → LC
  | 0, s => s
  | _ + 1, [] => []
  | fuel + 1, c :: cs =>
    if pat.isPrefixOf (c :: cs) then
      repl ++ replaceAllF pat repl fuel ((c :: cs).drop pat.length)
    else
      c :: replaceAllF pat repl fuel cs

/-- Python `s.replace(pat, repl)`. -/
def replaceAll (s pat repl : LC) : LC :=
  replaceAllF pat repl s.length s

/-! ### `_restore` -/

/-- The loop `for index in range(len(protected) - 1, -1, -1): out =
out.replace(f"⟪#{index}⟫", protected[index])`, with `i` indices still to
process (highest processed first). -/
def restoreDown (ps : List LC) : Nat → LC → LC
  | 0, t => t
  | i + 1, t => restoreDown ps i (replaceAll t (ph i) (ps.getD i []))

/-- `ControlledTranslator._restore`. -/
def restoreText (t : LC) (ps : List LC) : LC :=
  restoreDown ps ps.length t

/-! ### The six protection patterns of `PROTECT_PATTERNS`

Each pattern is embedded as a matcher
`tryX : Option Char → LC → Option (LC × LC)`: given the character preceding
the current position (for look-behinds; `none` at the start of the string)
and the remaining text, it returns `some (m, rest)` when the pattern matches
a non-empty prefix `m`, with `rest` the remaining suffix. -/

/-- Split at the first occurrence of ```` ``` ````: returns the part before
it and the part after it. -/
def findTriple : LC → Option (LC × LC)
  | [] => none
  | c :: cs =>
    if ['`', '`', '`'].isPrefixOf (c :: cs) then
      some ([], (c :: cs).drop 3)
    else
      (findTriple cs).map (fun p => (c :: p.1, p.2))

/-- Pattern 1: ``` ```[\s\S]*?``` ``` (fenced code block, non-greedy). -/
def tryFence : Option Char → LC → Option (LC × LC) :=
  fun _ s =>
    match s with
    | '`' :: '`' :: '`' :: rest =>
      (findTriple rest).map
        (fun p => ('`' :: '`' :: '`' :: (p.1 ++ ['`', '`', '`']), p.2))
    | _ => none

/-- Pattern 2: `` `[^`\n]+` `` (inline code span). -/
def tryInline : Option Char → LC → Option (LC × LC) :=
  fun _ s =>
    match s with
    | '`' :: rest =>
      let run := rest.takeWhile (fun c => !(c == '`' || c == '\n'))
      let rest2 := rest.dropWhile (fun c => !(c == '`' || c == '\n'))
      match rest2 with
      | '`' :: tail => if run.isEmpty then none else some ('`' :: run ++ ['`'], tail)
      | _ => none
    | _ => none

/-- A character allowed in the URL run `[^\s)\]>]`. -/
def isUrlCh (c : Char) : Bool :=
  !(isSpC c || c == ')' || c == ']' || c == '>')

/-- Pattern 3: `https?://[^\s)\]>]+`. -/
def tryUrl : Option Char → LC → Option (LC × LC) :=
  fun _ s =>
    let go : LC → LC → Option (LC × LC) := fun pre rest =>
      let run := rest.takeWhile (fun c => isUrlCh c)
      let rest2 := rest.dropWhile (fun c => isUrlCh c)
      if run.isEmpty then none else some (pre ++ run, rest2)
    if ['h','t','t','p','s',':','/','/'].isPrefixOf s then
      go (s.take 8) (s.drop 8)
    else if ['h','t','t','p',':','/','/'].isPrefixOf s then
      go (s.take 7) (s.drop 7)
    else none

/-- A character allowed in the path run `[^\s"'`<>|]` (the class excludes
whitespace, double quote, single quote, backtick, angle brackets, pipe). -/
def isPathCh (c : Char) : Bool :=
  !(isSpC c || c == '"' || c == Char.ofNat 39 || c == '`' || c == '<' ||
      c == '>' || c == '|')

/-- The path-start alternatives `~?/ | \.{1,2}/ | / | [A-Za-z]:\\`, tried in
the regex's order; returns the consumed start and the rest. -/
def pathStart : LC → Option (LC × LC)
  | '~' :: '/' :: rest => some (['~', '/'], rest)
  | '/' :: rest => some (['/'], rest)
  | '.' :: '.' :: '/' :: rest => some (['.', '.', '/'], rest)
  | '.' :: '/' :: rest => some (['.', '/'], rest)
  | c :: ':' :: '\\' :: rest =>
    if isAlphaCh c then some ([c, ':', '\\'], rest) else none
  | _ => none

/-- Pattern 4: `(?:^|(?<=\s))(?:~?/|\.{1,2}/|/|[A-Za-z]:\\)[^\s"'`<>|]*`. -/
def tryPath : Option Char → LC → Option (LC × LC) :=
  fun prev s =>
    let boundary := match prev with
      | none => true
      | some p => isSpC p
    if boundary then
      match pathStart s with
      | some (st, rest) =>
        some (st ++ rest.takeWhile (fun c => isPathCh c),
              rest.dropWhile (fun c => isPathCh c))
      | none => none
    else none

/-- A character of `[\w-]`. -/
def isFlagCh (c : Char) : Bool := isWordCh c || c == '-'

/-- Pattern 5: `(?<!\w)--?[A-Za-z][\w-]*` (command-line flag). -/
def tryFlag : Option Char → LC → Option (LC × LC) :=
  fun prev s =>
    let okPrev := match prev with
      | none => true
      | some p => !isWordCh p
    if okPrev then
      match s with
      | '-' :: '-' :: c :: rest =>
        if isAlphaCh c then
          some ('-' :: '-' :: c :: rest.takeWhile (fun d => isFlagCh d),
                rest.dropWhile (fun d => isFlagCh d))
        else if c == '-' then none
        else none
      | '-' :: c :: rest =>
        if isAlphaCh c then
          some ('-' :: c :: rest.takeWhile (fun d => isFlagCh d),
                rest.dropWhile (fun d => isFlagCh d))
        else none
      | _ => none
    else none

/-- A character of `[A-Z0-9_]`. -/
def isConstCh (c : Char) : Bool := isUpperCh c || isDigitCh c || c == '_'

/-- Pattern 6: `\b[A-Z_][A-Z0-9_]{2,}\b` (symbolic constant).  The leading
`\b` holds iff the previous character is not a word character; the trailing
`\b` holds iff the character after the maximal `[A-Z0-9_]` run is not a word
character (shrinking the greedy run cannot restore the boundary, since every
run character is itself a word character). -/
def tryConst : Option Char → LC → Option (LC × LC) :=
  fun prev s =>
    let okPrev := match prev with
      | none => true
      | some p => !isWordCh p
    if okPrev then
      match s with
      | c :: rest =>
        if isUpperCh c || c == '_' then
          let run := rest.takeWhile (fun d => isConstCh d)
          let rest2 := rest.dropWhile (fun d => isConstCh d)
          let okAfter := match rest2 with
            | [] => true
            | d :: _ => !isWordCh d
          if decide (2 ≤ run.length) && okAfter then
            some (c :: run, rest2)
          else none
        else none
      | [] => none
    else none

/-! ### One `pattern.sub(replacer, out)` pass of `_protect`

`re.sub` scans the original string left to right; on a match it emits the
replacement (here a fresh placeholder, appending the matched text to the
protected list) and resumes scanning right after the matched text.  The
look-behind character after a match is the last character of the matched
text. -/

/-- One protection pass.  `fuel ≥ s.length` suffices. -/
def protPassF (tryAt : Option Char → LC → Option (LC × LC)) :
    Nat → Option Char → LC → List LC → LC × List LC
  | 0, _, s, acc => (s, acc)
  | _ + 1, _, [], acc => ([], acc)
  | fuel + 1, prev, c :: cs, acc =>
    match tryAt prev (c :: cs) with
    | some (m, r) =>
      let res := protPassF tryAt fuel m.getLast? r (acc ++ [m])
      (ph acc.length ++ res.1, res.2)
    | none =>
      let res := protPassF tryAt fuel (some c) cs acc
      (c :: res.1, res.2)

/-- Run one protection pass over a whole string. -/
def protPass (tryAt : Option Char → LC → Option (LC × LC))
    (s : LC) (acc : List LC) : LC × List LC :=
  protPassF tryAt s.length none s acc

/-- `ControlledTranslator._protect`: the six passes in order, sharing the
protected list. -/
def protect (x : LC) : LC × List LC :=
  let p1 := protPass tryFence x []
  let p2 := protPass tryInline p1.1 p1.2
  let p3 := protPass tryUrl p2.1 p2.2
  let p4 := protPass tryPath p3.1 p3.2
  let p5 := protPass tryFlag p4.1 p4.2
  protPass tryConst p5.1 p5.2

/-! ### Override patterns

`ControlledTranslator.__init__` compiles each override source into
`(?<![A-Za-z0-9_])<escaped source>(?![A-Za-z0-9_])` with `re.IGNORECASE`:
a case-insensitive literal occurrence bounded by non-word characters (or
the string edges). -/

/-- Case-insensitive literal match of `src` against a prefix of the text;
returns the matched text (with the text's original casing) and the rest. -/
def matchCI : LC → LC → Option (LC × LC)
  | [], s => some ([], s)
  | _ :: _, [] => none
  | p :: ps, c :: cs =>
    if lowCh p == lowCh c then
      (matchCI ps cs).map (fun q => (c :: q.1, q.2))
    else none

/-- One `pattern.sub(replacement, out)` pass for a compiled override.
`prev` is the character before the current position in the original text
(for the `(?<![A-Za-z0-9_])` look-behind); replacements are not rescanned
within the pass.  `fuel ≥ s.length` suffices. -/
def ovPassF (src tgt : LC) : Nat → Option Char → LC → LC
  | 0, _, s => s
  | _ + 1, _, [] => []
  | fuel + 1, prev, c :: cs =>
    let okPrev := match prev with
      | none => true
      | some p => !isWordCh p
    match (if okPrev then matchCI src (c :: cs) else none) with
    | some (m, r) =>
      let okAfter := match r with
        | [] => true
        | d :: _ => !isWordCh d
      if okAfter then tgt ++ ovPassF src tgt fuel m.getLast? r
      else c :: ovPassF src tgt fuel (some c) cs
    | none => c :: ovPassF src tgt fuel (some c) cs

/-- One override pass over a whole string. -/
def ovPass (src tgt s : LC) : LC :=
  ovPassF src tgt s.length none s

/-! ### Tokenizer: `TOKEN_RE = [A-Za-z]+(?:[-'][A-Za-z0-9]+)*` -/

/-- The `(?:[-'][A-Za-z0-9]+)*` extension loop after the initial letter run.
`fuel ≥ s.length` suffices. -/
def tokExtend : Nat → LC → LC × LC
  | 0, s => ([], s)
  | fuel + 1, s =>
    match s with
    | sep :: c :: cs =>
      if (sep == '-' || sep == Char.ofNat 39) && isAlnumCh c then
        let run := (c :: cs).takeWhile (fun d => isAlnumCh d)
        let rest := (c :: cs).dropWhile (fun d => isAlnumCh d)
        let res := tokExtend fuel rest
        (sep :: (run ++ res.1), res.2)
      else ([], s)
    | _ => ([], s)

/-- The maximal `TOKEN_RE` match at the start of `s` (assumed to start with
a letter) and the rest of the text. -/
def tokenAt (s : LC) : LC × LC :=
  let run := s.takeWhile (fun c => isAlphaCh c)
  let rest := s.dropWhile (fun c => isAlphaCh c)
  let ext := tokExtend rest.length rest
  (run ++ ext.1, ext.2)

/-- `TOKEN_RE.finditer`, in chunk form: the text is split as
`gap₀ ++ tok₁ ++ gap₁ ++ tok₂ ++ gap₂ ++ ...`; returns `gap₀` and the list
of `(token, following gap)` pairs.  `fuel ≥ s.length` suffices. -/
def tokenizeF : Nat → LC → LC × List (LC × LC)
  | 0, s => (s, [])
  | _ + 1, [] => ([], [])
  | fuel + 1, c :: cs =>
    if isAlphaCh c then
      let t := tokenAt (c :: cs)
      let res := tokenizeF fuel t.2
      ([], (t.1, res.1) :: res.2)
    else
      let res := tokenizeF fuel cs
      (c :: res.1, res.2)

/-- Concatenation of `(token, gap)` chunks back into text. -/
def renderPairs : List (LC × LC) → LC
  | [] => []
  | (t, g) :: rest => t ++ g ++ renderPairs rest

/-! ### `_apply_dictionary` -/

/-- `" ".join(tokens)`. -/
def joinSpace : List LC → LC
  | [] => []
  | [t] => t
  | t :: ts => t ++ ' ' :: joinSpace ts

/-- Association-list lookup with insertion order (Python `dict.get`). -/
def lookupL {β : Type} (k : LC) : List (LC × β) → Option β
  | [] => none
  | (k2, v) :: rest => if k = k2 then some v else lookupL k rest

/-- Collect a window of `w` consecutive tokens starting at the current
position, requiring every internal gap to be non-empty pure whitespace
(`_tokens_are_space_separated`; Python's `"".isspace()` is `False`, so an
empty gap fails).  Returns the window's tokens, the gap after its last
token, and the remaining pairs. -/
def takeWindow : Nat → List (LC × LC) → Option (List LC × LC × List (LC × LC))
  | 0, _ => none
  | 1, (t, g) :: rest => some ([t], g, rest)
  | w + 2, (t, g) :: rest =>
    if !g.isEmpty && g.all (fun c => isSpC c) then
      (takeWindow (w + 1) rest).map (fun q => (t :: q.1, q.2.1, q.2.2))
    else none
  | _ + 1, [] => none

/-- The window loop `for window in range(max_window, min_phrase_words - 1,
-1)`: try `w`, then `w - 1`, ... while `w ≥ minW`.  A hit requires the
normalized phrase to map to a non-empty target (`if replacement:`).
Windows of non-positive size are not modelled (Python would index token
lists negatively there); every verified statement uses bounds `≥ 1`.
`fuel` bounds the number of window sizes tried. -/
def tryWindows (dict : List (LC × LC)) (minW : Int) :
    Nat → Int → List (LC × LC) → Option (LC × LC × List (LC × LC))
  | 0, _, _ => none
  | fuel + 1, w, pairs =>
    if w < minW then none
    else
      match (if w ≤ 0 then none else takeWindow w.toNat pairs) with
      | some (ts, lastGap, rest) =>
        match lookupL (normalizeKey (joinSpace ts)) dict with
        | some tgt =>
          if tgt.isEmpty then tryWindows dict minW fuel (w - 1) pairs
          else some (tgt, lastGap, rest)
        | none => tryWindows dict minW fuel (w - 1) pairs
      | none => tryWindows dict minW fuel (w - 1) pairs

/-- The main cursor loop of `_apply_dictionary` over the token/gap pairs:
on a hit, splice the target over the consumed window (the window's internal
whitespace gaps disappear, the gap after its last token is kept) and
continue after it; on a miss, emit the token and its gap verbatim and move
one token forward.  `fuel ≥ pairs.length` suffices. -/
def goDictF (dict : List (LC × LC)) (minW maxW : Int) :
    Nat → List (LC × LC) → LC
  | 0, pairs => renderPairs pairs
  | _ + 1, [] => []
  | fuel + 1, (t, g) :: rest =>
    let pairs := (t, g) :: rest
    let wStart : Int := min maxW (pairs.length : Int)
    match tryWindows dict minW ((wStart - minW).toNat + 1) wStart pairs with
    | some (tgt, lastGap, r) => tgt ++ lastGap ++ goDictF dict minW maxW fuel r
    | none => t ++ g ++ goDictF dict minW maxW fuel rest

/-- `ControlledTranslator._apply_dictionary`. -/
def applyDictionary (dict : List (LC × LC)) (minW maxW : Int) (text : LC) : LC :=
  let tk := tokenizeF text.length text
  if tk.2.isEmpty then text
  else tk.1 ++ goDictF dict minW maxW tk.2.length tk.2

/-! ### `ControlledTranslator` -/

/-- The translator's immutable state: the dictionary map, the effective
phrase-word bounds, and the compiled override patterns (source, target) in
application order. -/
structure Translator where
  dictionaryMap : List (LC × LC)
  minPhraseWords : Int
  maxPhraseWords : Int
  overridePatterns : List (LC × LC)

/-- Stable insertion into a list sorted by source length, descending
(equal lengths keep earlier elements first). -/
def insertByLenDesc (x : LC × LC) : List (LC × LC) → List (LC × LC)
  | [] => [x]
  | y :: ys =>
    if y.1.length < x.1.length then x :: y :: ys
    else y :: insertByLenDesc x ys

/-- `sorted(..., key=len(source), reverse=True)` (stable). -/
def sortByLenDesc (l : List (LC × LC)) : List (LC × LC) :=
  l.foldl (fun acc x => insertByLenDesc x acc) []

/-- `ControlledTranslator.__init__`: `max_phrase_words` is clamped to
`max(min_phrase_words, max_phrase_words)`; overrides with blank source or
target are dropped, sources are normalized, and the patterns are sorted by
source length descending. -/
def mkTranslator (dict : List (LC × LC)) (overrides : List (LC × LC))
    (minW maxW : Int) : Translator where
  dictionaryMap := dict
  minPhraseWords := minW
  maxPhraseWords := max minW maxW
  overridePatterns :=
    sortByLenDesc
      ((overrides.filter
          (fun p => !(stripStr p.1).isEmpty && !(stripStr p.2).isEmpty)).map
        (fun p => (normalizeKey p.1, p.2)))

/-- `ControlledTranslator._apply_overrides`: each compiled pattern in
order, one whole-text pass each. -/
def applyOverrides (tr : Translator) (s : LC) : LC :=
  tr.overridePatterns.foldl (fun out p => ovPass p.1 p.2 out) s

/-- The dictionary pass with the translator's bounds. -/
def applyDict (tr : Translator) (s : LC) : LC :=
  applyDictionary tr.dictionaryMap tr.minPhraseWords tr.maxPhraseWords s

/-- `ControlledTranslator.translate_text`: short-circuit on blank or
letter-free text, else protect → overrides → dictionary → restore. -/
def translateText (tr : Translator) (text : LC) : LC :=
  if (stripStr text).isEmpty || !hasEnglish text then text
  else
    let p := protect text
    restoreText (applyDict tr (applyOverrides tr p.1)) p.2

/-! ### `DeltaAccumulator` -/

/-- The accumulator's keyed buffers (Python `dict`, insertion-ordered). -/
structure DeltaAcc where
  buffers : List (LC × LC)

/-- `dict.__setitem__`: update in place if present, else append. -/
def setBuf (k v : LC) : List (LC × LC) → List (LC × LC)
  | [] => [(k, v)]
  | (k2, w) :: rest =>
    if k = k2 then (k, v) :: rest else (k2, w) :: setBuf k v rest

/-- `DeltaAccumulator.rewrite_to_full_buffer`: append the delta to the
stored buffer and return the translation of the whole accumulated text. -/
def rewriteToFullBuffer (acc : DeltaAcc) (streamKey delta : LC)
    (tr : Translator) : LC × DeltaAcc :=
  let full := ((lookupL streamKey acc.buffers).getD []) ++ delta
  (translateText tr full, ⟨setBuf streamKey full acc.buffers⟩)

/-- `DeltaAccumulator.clear_by_record_id`: delete every buffer whose key
starts with `record_id ++ "|"`. -/
def clearByRecordId (acc : DeltaAcc) (recordId : LC) : DeltaAcc :=
  ⟨acc.buffers.filter (fun kv => !(recordId ++ ['|']).isPrefixOf kv.1)⟩

/-! ### JSON values and the structural walker -/

/-!
Parsed JSON values (Python floats are not exercised by any claim and are
omitted; object fields keep insertion order).  Arrays and objects are
mutual inductives so that all recursion over them is structural.
-/

mutual

/-- A parsed JSON value. -/
inductive Json where
  | null
  | bool (b : Bool)
  | num (n : Int)
  | str (s : LC)
  | arr (xs : JsonArr)
  | obj (fields : JsonObj)

/-- The element list of a JSON array. -/
inductive JsonArr where
  | nil
  | cons (hd : Json) (tl : JsonArr)

/-- The field list of a JSON object. -/
inductive JsonObj where
  | nil
  | cons (key : LC) (val : Json) (tl : JsonObj)

end

/-- Build an object field list from a plain list of pairs. -/
def mkObj : List (LC × Json) → JsonObj
  | [] => .nil
  | (k, v) :: rest => .cons k v (mkObj rest)

/-- Field lookup in an object's field list (first match wins, as in a
Python dict built in insertion order). -/
def lookupObj (k : LC) : JsonObj → Option Json
  | .nil => none
  | .cons k2 v rest => if k = k2 then some v else lookupObj k rest

/-- `node.get(key)` for dict nodes; `none` on non-dict nodes (mirroring the
source's `isinstance(node, dict)` guards). -/
def jGet (j : Json) (k : LC) : Option Json :=
  match j with
  | .obj fields => lookupObj k fields
  | _ => none

/-- Extract a string value. -/
def strField : Option Json → Option LC
  | some (.str s) => some s
  | _ => none

/-- Extract a non-empty string value (`isinstance(v, str) and v`). -/
def nonEmptyStr : Option Json → Option LC
  | some (.str s) => if s.isEmpty then none else some s
  | _ => none

/-- `detect_event_type`: `type`, then `payload.msg.type`, then
`msg.type`. -/
def detectEventType (j : Json) : Option LC :=
  (strField (jGet j ("type".toList))).orElse fun _ =>
    (((jGet j ("payload".toList)).bind fun p => jGet p ("msg".toList)).bind
        (fun m => strField (jGet m ("type".toList)))).orElse fun _ =>
      (jGet j ("msg".toList)).bind fun m => strField (jGet m ("type".toList))

/-- `extract_record_id`: `payload.id`, then `id`, then `item_id`; only
non-empty strings count. -/
def extractRecordId (j : Json) : Option LC :=
  (nonEmptyStr ((jGet j ("payload".toList)).bind fun p => jGet p ("id".toList))).orElse fun _ =>
    (nonEmptyStr (jGet j ("id".toList))).orElse fun _ =>
      nonEmptyStr (jGet j ("item_id".toList))

/-- `TARGET_STATUS_KEYS`. -/
def targetStatusKeys : List LC :=
  [("status_header".toList), ("status_details".toList),
   ("statusHeader".toList), ("statusDetails".toList)]

/-- `TARGET_REASONING_KEYS`. -/
def targetReasoningKeys : List LC :=
  [("delta".toList), ("text".toList), ("summary".toList),
   ("summary_text".toList), ("summaryText".toList), ("message".toList)]

/-- `TARGET_STATUS_EVENT_TYPES`. -/
def targetStatusEventTypes : List LC :=
  [("background_event".toList), ("collab_waiting_begin".toList),
   ("collab_waiting_end".toList)]

/-- `RESET_EVENT_TYPES`. -/
def resetEventTypes : List LC :=
  [("agent_reasoning".toList), ("agent_reasoning_raw_content".toList),
   ("agent_reasoning_section_break".toList), ("task_complete".toList),
   ("turn_complete".toList)]

/-- `'.'.join(path)`. -/
def joinDots : List LC → LC
  | [] => []
  | [p] => p
  | p :: ps => p ++ '.' :: joinDots ps

/-- `should_translate_field` (the redundant second status-key check of the
source is kept).  Python's `if event_type:` treats the empty string as
absent. -/
def shouldTranslateField (key : LC) (eventType : Option LC)
    (parentPath : List LC) : Bool :=
  if targetStatusKeys.contains key then true
  else
    let mtd : List LC := [("message".toList), ("text".toList), ("delta".toList)]
    let fromEt := match eventType with
      | some et =>
        if et.isEmpty then false
        else
          let lowered := lowStr et
          (isInfixL ("reasoning".toList) lowered && targetReasoningKeys.contains key) ||
            (targetStatusEventTypes.contains lowered && mtd.contains key)
      | none => false
    if fromEt then true
    else if [("status_header".toList), ("status_details".toList)].contains key then true
    else
      isInfixL ("orchestration".toList) (lowStr (joinDots parentPath)) &&
        mtd.contains key

/-- Delta handling policy (`--delta-mode`). -/
inductive DeltaMode where
  | fullBuffer
  | chunk
deriving DecidableEq

/-- Input mode (`--mode`). -/
inductive Mode where
  | auto
  | jsonl
  | text
deriving DecidableEq

/-- `node_event_type = detect_event_type(node) or inherited_event_type`
(Python `or`: an empty string also falls back). -/
def nodeEventType (node : Json) (inherited : Option LC) : Option LC :=
  match detectEventType node with
  | some s => if s.isEmpty then inherited else some s
  | none => inherited

/-- The delta-expansion condition of `translate_json_node`. -/
def shouldExpandDelta (dm : DeltaMode) (key : LC) (et : Option LC)
    (recordId : Option LC) : Bool :=
  dm == DeltaMode.fullBuffer && key == ("delta".toList) &&
    (match et with
     | some e =>
       isInfixL ("reasoning".toList) (lowStr e) ||
         targetStatusEventTypes.contains (lowStr e)
     | none => false) &&
    recordId.isSome

mutual

/-- `translate_json_node`: rebuild the JSON value, translating eligible
string fields and threading the delta accumulator. -/
def twalk (tr : Translator) (dm : DeltaMode) (recordId : Option LC)
    (acc : DeltaAcc) (inherited : Option LC) (path : List LC)
    (node : Json) : Json × DeltaAcc :=
  let et := nodeEventType node inherited
  match node with
  | .obj fields =>
    let r := twalkFields tr dm recordId acc et path fields
    (.obj r.1, r.2)
  | .arr xs =>
    let r := twalkArr tr dm recordId acc et path xs
    (.arr r.1, r.2)
  | other => (other, acc)

/-- The field loop of `translate_json_node` over a dict's items. -/
def twalkFields (tr : Translator) (dm : DeltaMode) (recordId : Option LC)
    (acc : DeltaAcc) (et : Option LC) (path : List LC) :
    JsonObj → JsonObj × DeltaAcc
  | .nil => (.nil, acc)
  | .cons key value rest =>
    let step : Json × DeltaAcc :=
      match value with
      | .str sv =>
        if shouldTranslateField key et path then
          match recordId, et with
          | some rid, some e =>
            if shouldExpandDelta dm key (some e) (some rid) then
              let streamKey := rid ++ '|' :: (e ++ '|' :: joinDots (path ++ [key]))
              let rw := rewriteToFullBuffer acc streamKey sv tr
              (.str rw.1, rw.2)
            else (.str (translateText tr sv), acc)
          | some _, none => (.str (translateText tr sv), acc)
          | none, some _ => (.str (translateText tr sv), acc)
          | none, none => (.str (translateText tr sv), acc)
        else twalk tr dm recordId acc et (path ++ [key]) (.str sv)
      | other => twalk tr dm recordId acc et (path ++ [key]) other
    let r := twalkFields tr dm recordId step.2 et path rest
    (.cons key step.1 r.1, r.2)

/-- The element loop of `translate_json_node` over an array. -/
def twalkArr (tr : Translator) (dm : DeltaMode) (recordId : Option LC)
    (acc : DeltaAcc) (et : Option LC) (path : List LC) :
    JsonArr → JsonArr × DeltaAcc
  | .nil => (.nil, acc)
  | .cons x xs =>
    let r1 := twalk tr dm recordId acc et path x
    let r2 := twalkArr tr dm recordId r1.2 et path xs
    (.cons r1.1 r2.1, r2.2)

end

/-! ### Line processing -/

/-- Process-wide counters. -/
structure Stats where
  lines : Nat
  translatedStrings : Nat
  jsonRecords : Nat
deriving DecidableEq

/-- `line.rstrip("\n")`. -/
def rstripNl (s : LC) : LC :=
  (s.reverse.dropWhile (fun c => c == '\n')).reverse

/-- Integer decimal representation. -/
def intRepr (n : Int) : LC :=
  if n < 0 then '-' :: natRepr (-n).toNat else natRepr n.toNat

/-- JSON string escaping (`ensure_ascii=False`; control characters other
than `\n`, `\t`, `\r` are not exercised by any claim). -/
def jsonEscape : LC → LC
  | [] => []
  | c :: cs =>
    (if c = '"' then ['\\', '"']
     else if c = '\\' then ['\\', '\\']
     else if c = '\n' then ['\\', 'n']
     else if c = '\t' then ['\\', 't']
     else if c = '\r' then ['\\', 'r']
     else [c]) ++ jsonEscape cs

mutual

/-- `json.dumps(..., ensure_ascii=False, separators=(",", ":"))`. -/
def jsonDump : Json → LC
  | .null => ("null".toList)
  | .bool true => ("true".toList)
  | .bool false => ("false".toList)
  | .num n => intRepr n
  | .str s => '"' :: (jsonEscape s ++ ['"'])
  | .arr xs => '[' :: (jsonDumpArr xs ++ [']'])
  | .obj fields => Char.ofNat 123 :: (jsonDumpObj fields ++ [Char.ofNat 125])

/-- Array elements, comma-separated. -/
def jsonDumpArr : JsonArr → LC
  | .nil => []
  | .cons x .nil => jsonDump x
  | .cons x (.cons y rest) => jsonDump x ++ ',' :: jsonDumpArr (.cons y rest)

/-- Object fields, comma-separated, `key:value`. -/
def jsonDumpObj : JsonObj → LC
  | .nil => []
  | .cons k v .nil => '"' :: (jsonEscape k ++ ['"', ':'] ++ jsonDump v)
  | .cons k v (.cons k2 v2 rest) =>
    '"' :: (jsonEscape k ++ ['"', ':'] ++ jsonDump v) ++
      ',' :: jsonDumpObj (.cons k2 v2 rest)

end

/-- Does the stripped content start with `{` or `[`?  (The trigger for
attempting a JSON parse.) -/
def looksJson (content : LC) : Bool :=
  match stripStr content with
  | [] => false
  | c :: _ => c == Char.ofNat 123 || c == '['

/-- `process_line`.  JSON parsing (`json.loads`) is abstracted as the input
`parsed : Option Json`: `none` models a `json.JSONDecodeError`, and is only
consulted when the source would attempt a parse. -/
def processLine (tr : Translator) (mode : Mode) (dm : DeltaMode)
    (line : LC) (parsed : Option Json) (acc : DeltaAcc) (stats : Stats) :
    LC × DeltaAcc × Stats :=
  let stats1 : Stats := { stats with lines := stats.lines + 1 }
  let content := rstripNl line
  let newline : LC := if line.getLast? == some '\n' then ['\n'] else []
  let textTail : LC × DeltaAcc × Stats :=
    if mode = Mode.jsonl then (line, acc, stats1)
    else
      let translated := translateText tr content
      let stats2 :=
        if translated ≠ content then
          { stats1 with translatedStrings := stats1.translatedStrings + 1 }
        else stats1
      (translated ++ newline, acc, stats2)
  if (mode == Mode.auto || mode == Mode.jsonl) && looksJson content then
    match parsed with
    | none => textTail
    | some p =>
      let et := detectEventType p
      let rid := extractRecordId p
      let acc1 :=
        if dm == DeltaMode.fullBuffer &&
            (match rid, et with
             | some _, some e => resetEventTypes.contains e
             | _, _ => false) then
          match rid with
          | some r => clearByRecordId acc r
          | none => acc
        else acc
      let w := twalk tr dm rid acc1 none [] p
      let encoded := jsonDump w.1
      let stats2 :=
        if encoded ≠ content then
          { stats1 with translatedStrings := stats1.translatedStrings + 1,
                        jsonRecords := stats1.jsonRecords + 1 }
        else { stats1 with jsonRecords := stats1.jsonRecords + 1 }
      (encoded ++ newline, w.2, stats2)
  else textTail

/-! ### Loaders and `main`'s bound handling -/

/-- The `isinstance(key, str) and isinstance(value, str)` filter of
`load_overrides` over an object's items (keys are always strings here, as
in parsed JSON). -/
def stringPairs : JsonObj → List (LC × LC)
  | .nil => []
  | .cons k (.str v) rest => (k, v) :: stringPairs rest
  | .cons _ _ rest => stringPairs rest

/-- `load_overrides`.  The file's content is abstracted as
`parsed : Except Unit Json` (`.error` models a `json.JSONDecodeError` from
`json.loads`, which `load_overrides` does not catch). -/
def loadOverrides (fileExists : Bool) (parsed : Except Unit Json) :
    Except LC (List (LC × LC)) :=
  if !fileExists then .ok []
  else
    match parsed with
    | .error _ => .error ("Expecting value".toList)
    | .ok j =>
      match j with
      | .obj fields => .ok (stringPairs fields)
      | _ => .error ("overrides file must be a JSON object".toList)

/-- Python `str(...)` of a JSON scalar (container reprs are not exercised
by any claim). -/
def jToStr : Json → LC
  | .str s => s
  | .num n => intRepr n
  | .bool true => ("True".toList)
  | .bool false => ("False".toList)
  | .null => ("None".toList)
  | _ => []

/-- The accepted `lang_tgt` values. -/
def zhLangs : List LC := [("zh".toList), ("zh-Hans".toList), ("zh-Hant".toList)]

/-- The language filter of `load_dictionary`: `lang_src == "en"` and
`lang_tgt` in the target set. -/
def dictLangOk (r : Json) : Bool :=
  (match jGet r ("lang_src".toList) with
   | some (.str s) => s == ("en".toList)
   | _ => false) &&
  (match jGet r ("lang_tgt".toList) with
   | some (.str s) => zhLangs.contains s
   | _ => false)

/-- `normalize_spaces(str(record.get("term_src", "")))`. -/
def dictSource (r : Json) : LC :=
  normalizeSpaces (jToStr ((jGet r ("term_src".toList)).getD (.str [])))

/-- `normalize_spaces(str(record.get("term_tgt", "")))`. -/
def dictTarget (r : Json) : LC :=
  normalizeSpaces (jToStr ((jGet r ("term_tgt".toList)).getD (.str [])))

/-- The record loop of `load_dictionary` (records are the parsed non-blank
lines, in order; `mapping[key] = target` appends since `key` is new). -/
def loadDictAux : List Json → List (LC × LC) → List (LC × LC)
  | [], m => m
  | r :: rs, m =>
    if !dictLangOk r then loadDictAux rs m
    else if (dictSource r).isEmpty || (dictTarget r).isEmpty then loadDictAux rs m
    else if !isPlainEnglishTerm (dictSource r) then loadDictAux rs m
    else if (lookupL (normalizeKey (dictSource r)) m).isSome then loadDictAux rs m
    else loadDictAux rs (m ++ [(normalizeKey (dictSource r), dictTarget r)])

/-- `load_dictionary`. -/
def loadDictionary (records : List Json) : List (LC × LC) :=
  loadDictAux records []

/-- `main`'s clamp of the CLI minimum: `max(1, args.min_phrase_words)`. -/
def mainMinPhraseWords (cliMin : Int) : Int := max 1 cliMin

/-- The translator `main` builds from the CLI bounds. -/
def mainTranslator (dict overrides : List (LC × LC)) (cliMin cliMax : Int) :
    Translator :=
  mkTranslator dict overrides (mainMinPhraseWords cliMin) cliMax

/-! ### Predicates used to state and prove placeholder preservation -/

/-- The characters that can occur in a placeholder token `⟪#i⟫`. -/
def phChar (c : Char) : Bool :=
  c == '⟪' || c == '#' || c == '⟫' || isDigitCh c

/-- A character of the token alphabet `[A-Za-z0-9'-]` (everything a
`TOKEN_RE` match can contain). -/
def tokCh (c : Char) : Bool :=
  isAlnumCh c || c == '-' || c == Char.ofNat 39

/-- The amended condition on a compiled override source under which the
override pass cannot touch a placeholder: the source contains neither
placeholder delimiter and has at least one character that is neither `#`
nor a digit. -/
def okOverrideSource (src : LC) : Bool :=
  !src.contains '⟪' && !src.contains '⟫' &&
    src.any (fun c => !(c == '#' || isDigitCh c))

/-- `SegOk n s`: the string `s` decomposes into literal characters other
than `'⟪'` and whole placeholder tokens `⟪#k⟫` with `k < n`.  This is the
shape invariant of the masked text maintained by the protection passes. -/
inductive SegOk (n : Nat) : LC → Prop where
  | nil : SegOk n []
  | lit {c : Char} {s : LC} : c ≠ '⟪' → SegOk n s → SegOk n (c :: s)
  | ref {k : Nat} {s : LC} : k < n → SegOk n s → SegOk n (ph k ++ s)

/-- Value of a digit list, least significant digit first (decoder for
`natDigitsRev`). -/
def valRev : List Nat → Nat
  | [] => 0
  | d :: ds => d + 10 * valRev ds

/-- `NoPhStart w i`: no occurrence of the placeholder `ph i` can begin at
any position inside `w`, whatever text follows `w`. -/
def NoPhStart (w : LC) (i : Nat) : Prop :=
  ∀ k, k < w.length → ∀ v, (ph i).isPrefixOf (w.drop k ++ v) = false

/-- The restore steps for the index band `[lo, lo + d)` alone, highest
index first (the part of `_restore`'s loop that undoes the placeholders
introduced by one protection pass). -/
def bandDown (ps : List LC) (lo : Nat) : Nat → LC → LC
  | 0, t => t
  | j + 1, t => bandDown ps lo j (replaceAll t (ph (lo + j)) (ps.getD (lo + j) []))

/-- The look-behind character after scanning across `u` (the last
character of `u`, or the previous one if `u` is empty). -/
def lastPrev (u : LC) (prev : Option Char) : Option Char :=
  match u.getLast? with
  | some d => some d
  | none => prev

/-!
## Theorems

General lemmas about the embedded operations first, then one theorem per
claim (with witnesses for the theorems that carry hypotheses).
-/

theorem lookupL_filter_out {β : Type} (p : LC → Bool) (key : LC)
    (h : p key = true) (l : List (LC × β)) :
    lookupL key (l.filter (fun kv => !p kv.1)) = none := by
  induction l with
  | nil => rfl
  | cons kv rest ih =>
    by_cases hk : key = kv.1
    · subst hk
      simp [List.filter, h, ih]
    · rcases hp : p kv.1 with _ | _
      · simpa [List.filter, hp, lookupL, hk] using ih
      · simpa [List.filter, hp] using ih

theorem lookupL_filter_keep {β : Type} (p : LC → Bool) (key : LC)
    (h : p key = false) (l : List (LC × β)) :
    lookupL key (l.filter (fun kv => !p kv.1)) = lookupL key l := by
  induction l with
  | nil => rfl
  | cons kv rest ih =>
    by_cases hk : key = kv.1
    · subst hk
      simp [List.filter, h, lookupL]
    · rcases hp : p kv.1 with _ | _
      · simpa [List.filter, hp, lookupL, hk] using ih
      · simpa [List.filter, hp, lookupL, hk] using ih

/-- `C9`: for every pair of CLI bound arguments, the effective bounds of the
translator built by `main` satisfy `1 ≤ min_phrase_words ≤
max_phrase_words` — `main` clamps the minimum to at least 1 and the
constructor replaces the maximum by `max(min, max)` — so the configured
window-size range of the dictionary matcher is never empty, even when the
CLI is given `max < min` or `min < 1`. -/
theorem mainTranslator_bounds (dict overrides : List (LC × LC))
    (cliMin cliMax : Int) :
    1 ≤ (mainTranslator dict overrides cliMin cliMax).minPhraseWords ∧
      (mainTranslator dict overrides cliMin cliMax).minPhraseWords ≤
        (mainTranslator dict overrides cliMin cliMax).maxPhraseWords := by
  refine ⟨?_, ?_⟩
  · exact le_max_left 1 cliMin
  · exact le_max_left _ cliMax

/-- `C3` (counterexample): an existing overrides file whose JSON parses to
a non-object (here the array `[]`) makes `load_overrides` raise a
`ValueError`, and an unparseable file propagates the `JSONDecodeError`;
neither is recovered into an empty override set. -/
theorem loadOverrides_malformed_fatal :
    loadOverrides true (.ok (Json.arr .nil)) =
        .error (("overrides file must be a JSON object".toList)) ∧
      loadOverrides true (.error ()) = .error (("Expecting value".toList)) :=
  ⟨rfl, rfl⟩

/-- `C3` (amended): only the missing-file case is recovered — a missing
overrides file yields the empty override set non-fatally, while an
existing file with unparseable JSON or a non-object JSON value raises
(fatal). -/
theorem loadOverrides_missing_recovered (pr : Except Unit Json) (j : Json)
    (h : ∀ fs, j ≠ Json.obj fs) :
    loadOverrides false pr = .ok [] ∧
      (∃ msg, loadOverrides true (.ok j) = .error msg) ∧
      (∃ msg, loadOverrides true (.error ()) = .error msg) := by
  refine ⟨rfl, ?_, ⟨_, rfl⟩⟩
  cases j with
  | obj fs => exact absurd rfl (h fs)
  | null => exact ⟨_, rfl⟩
  | bool b => exact ⟨_, rfl⟩
  | num n => exact ⟨_, rfl⟩
  | str s => exact ⟨_, rfl⟩
  | arr xs => exact ⟨_, rfl⟩

/-- Witness for `loadOverrides_missing_recovered` at concrete inputs. -/
theorem loadOverrides_missing_recovered_witness :
    loadOverrides false (.error ()) = .ok [] :=
  (loadOverrides_missing_recovered (.error ()) (Json.arr .nil)
    (fun _ h => by cases h)).1

/-- `C4`: the dictionary matcher is greedy longest-match.  With entries for
both `"machine learning"` and `"machine"` and `min_phrase_words = 1`,
`"machine learning model"` takes the two-word translation over the first
two words and looks `"model"` up separately (a miss, left verbatim); in
`"machine, learning model"` the comma breaks the two-word window, so the
single-word entry fires and all unmatched text (including the comma and
spacing) is preserved verbatim. -/
theorem applyDictionary_greedy_longest :
    applyDictionary
        [(("machine learning".toList), ("X".toList)),
         (("machine".toList), ("Y".toList))] 1 8
        ("machine learning model".toList) = ("X model".toList) ∧
      applyDictionary
        [(("machine learning".toList), ("X".toList)),
         (("machine".toList), ("Y".toList))] 1 8
        ("machine, learning model".toList) = ("Y, learning model".toList) := by
  constructor <;> rfl

/-- `C7`: `translate_text` applies the override pass strictly before the
dictionary pass (the non-short-circuit branch is literally
restore ∘ dictionary ∘ overrides ∘ protect), and when the same normalized
phrase is both an override source and a dictionary key, the override's
target — not the dictionary's — appears in the output. -/
theorem overrides_precede_dictionary :
    (∀ (tr : Translator) (t : LC),
        translateText tr t =
          if (stripStr t).isEmpty || !hasEnglish t then t
          else
            restoreText (applyDict tr (applyOverrides tr (protect t).1))
              (protect t).2) ∧
      translateText
          (mkTranslator [(("machine learning".toList), ("Z2".toList))]
            [(("machine learning".toList), ("Z1".toList))] 2 8)
          ("machine learning".toList) = ("Z1".toList) ∧
      isInfixL ("Z2".toList)
          (translateText
            (mkTranslator [(("machine learning".toList), ("Z2".toList))]
              [(("machine learning".toList), ("Z1".toList))] 2 8)
            ("machine learning".toList)) = false := by
  refine ⟨fun tr t => rfl, ?_, ?_⟩ <;> rfl

/-- `C1` (counterexample): `restore(protect(x)) = x` fails on inputs that
already contain placeholder-shaped text.  For `x = "⟪#0⟫ TEST"`, `protect`
masks `TEST` as `⟪#0⟫`, and `restore` replaces both occurrences of `⟪#0⟫`,
yielding `"TEST TEST" ≠ x`. -/
theorem protect_restore_not_id :
    restoreText (protect ("⟪#0⟫ TEST".toList)).1
        (protect ("⟪#0⟫ TEST".toList)).2 = ("TEST TEST".toList) ∧
      restoreText (protect ("⟪#0⟫ TEST".toList)).1
        (protect ("⟪#0⟫ TEST".toList)).2 ≠ ("⟪#0⟫ TEST".toList) := by
  exact ⟨by decide, by decide⟩

/-- `C2` (counterexample): the override pass can destroy a placeholder for
an override map the loader accepts.  With the single override
`"#0" ↦ "X"` (a legal string-to-string entry), masking `"TEST"` yields the
placeholder `⟪#0⟫`, whose inner `#0` matches the compiled override pattern
(both neighbours are non-word characters), so the override pass rewrites
the masked text to `⟪X⟫`: the placeholder is gone before `restore` runs,
and `translate_text` returns the corrupted `"⟪X⟫"`. -/
theorem override_destroys_placeholder :
    (protect ("TEST".toList)).1 = ph 0 ∧
      applyOverrides (mkTranslator [] [(("#0".toList), ("X".toList))] 2 8)
          (protect ("TEST".toList)).1 = ("⟪X⟫".toList) ∧
      isInfixL (ph 0)
          (applyOverrides (mkTranslator [] [(("#0".toList), ("X".toList))] 2 8)
            (protect ("TEST".toList)).1) = false ∧
      translateText (mkTranslator [] [(("#0".toList), ("X".toList))] 2 8)
          ("TEST".toList) = ("⟪X⟫".toList) := by
  exact ⟨by decide, by decide, by decide, by decide⟩

/-- `C5`: for every stream key, after feeding two delta fragments through
`rewrite_to_full_buffer` starting from an empty accumulator, the second
returned output is the translation of the whole concatenated buffer; in
particular with fragments `"Thinking about the "` then
`"machine learning problem"` and a dictionary entry for
`"machine learning"` the second output contains the translated phrase,
although no single fragment contained the complete phrase. -/
theorem rewrite_full_buffer_second_output (key : LC) (tr : Translator)
    (d1 d2 : LC) :
    (rewriteToFullBuffer (rewriteToFullBuffer ⟨[]⟩ key d1 tr).2 key d2 tr).1 =
        translateText tr (d1 ++ d2) ∧
      (rewriteToFullBuffer
          (rewriteToFullBuffer ⟨[]⟩ key ("Thinking about the ".toList)
            (mkTranslator [(("machine learning".toList), ("W".toList))] [] 2 8)).2
          key ("machine learning problem".toList)
          (mkTranslator [(("machine learning".toList), ("W".toList))] [] 2 8)).1 =
        ("Thinking about the W problem".toList) ∧
      isInfixL ("W".toList)
        (rewriteToFullBuffer
          (rewriteToFullBuffer ⟨[]⟩ key ("Thinking about the ".toList)
            (mkTranslator [(("machine learning".toList), ("W".toList))] [] 2 8)).2
          key ("machine learning problem".toList)
          (mkTranslator [(("machine learning".toList), ("W".toList))] [] 2 8)).1 =
        true := by
  refine ⟨?_, ?_, ?_⟩
  · simp [rewriteToFullBuffer, setBuf, lookupL]
  · simp [rewriteToFullBuffer, setBuf, lookupL]
    rfl
  · simp [rewriteToFullBuffer, setBuf, lookupL]
    rfl

theorem length_collapseSp (s : LC) : ∀ b, (collapseSp b s).length ≤ s.length := by
  induction s with
  | nil => intro b; simp [collapseSp]
  | cons c cs ih =>
    intro b
    by_cases h : isSpC c = true
    · cases b with
      | true =>
        simpa [collapseSp, h] using Nat.le_succ_of_le (ih true)
      | false =>
        simpa [collapseSp, h] using ih true
    · simp only [collapseSp, h]
      simpa using ih false

theorem length_stripStr (s : LC) : (stripStr s).length ≤ s.length := by
  calc (stripStr s).length
      ≤ (s.dropWhile (fun c => isSpC c)).length := by
        simpa [stripStr] using
          (List.dropWhile_sublist (l := (s.dropWhile (fun c => isSpC c)).reverse)
            (fun c => isSpC c)).length_le
    _ ≤ s.length := (List.dropWhile_sublist _).length_le

theorem length_normalizeKey (s : LC) : (normalizeKey s).length ≤ s.length := by
  calc (normalizeKey s).length
      = (stripStr (collapseSp false s)).length := by simp [normalizeKey, normalizeSpaces, lowStr]
    _ ≤ (collapseSp false s).length := length_stripStr _
    _ ≤ s.length := length_collapseSp s false

theorem isPlainEnglishTerm_length {s : LC} (h : isPlainEnglishTerm s = true) :
    s.length ≤ 128 := by
  cases s with
  | nil => simp [isPlainEnglishTerm] at h
  | cons c rest =>
    simp only [isPlainEnglishTerm, Bool.and_eq_true, decide_eq_true_eq] at h
    simpa using Nat.succ_le_succ h.2

theorem loadDictAux_key_length (records : List Json) :
    ∀ m, (∀ kv ∈ m, (kv.1 : LC).length ≤ 128) →
      ∀ kv ∈ loadDictAux records m, (kv.1 : LC).length ≤ 128 := by
  induction records with
  | nil => intro m hm; exact hm
  | cons r rs ih =>
    intro m hm
    unfold loadDictAux
    split
    · exact ih m hm
    · split
      · exact ih m hm
      · split
        · exact ih m hm
        · split
          · exact ih m hm
          · rename_i hplain _
            refine ih _ ?_
            intro kv hkv
            rcases List.mem_append.mp hkv with hold | hnew
            · exact hm kv hold
            · have hkey : kv.1 = normalizeKey (dictSource r) := by
                simpa using congrArg Prod.fst (List.mem_singleton.mp hnew)
              have hpl : isPlainEnglishTerm (dictSource r) = true := by
                simpa using hplain
              calc kv.1.length
                  ≤ (dictSource r).length := by
                    rw [hkey]; exact length_normalizeKey _
                _ ≤ 128 := isPlainEnglishTerm_length hpl

/-- `C10`: every key of the loaded dictionary map has length at most 128,
because `load_dictionary` rejects any record whose whitespace-normalized
source phrase fails `is_plain_english_term`, whose regex allows at most 127
characters after the first. -/
theorem loadDictionary_key_length (records : List Json) :
    ∀ kv ∈ loadDictionary records, (kv.1 : LC).length ≤ 128 :=
  loadDictAux_key_length records [] (by simp)

/-- Witness for `loadDictionary_key_length` on a one-record dictionary
file. -/
theorem loadDictionary_key_length_witness :
    (("machine learning".toList, "机器学习".toList) ∈
        loadDictionary
          [Json.obj (mkObj
            [(("lang_src".toList), Json.str ("en".toList)),
             (("lang_tgt".toList), Json.str ("zh".toList)),
             (("term_src".toList), Json.str ("machine learning".toList)),
             (("term_tgt".toList), Json.str ("机器学习".toList))])]) ∧
      ("machine learning".toList).length ≤ 128 := by
  have hmem : ("machine learning".toList, "机器学习".toList) ∈
      loadDictionary
        [Json.obj (mkObj
          [(("lang_src".toList), Json.str ("en".toList)),
           (("lang_tgt".toList), Json.str ("zh".toList)),
           (("term_src".toList), Json.str ("machine learning".toList)),
           (("term_tgt".toList), Json.str ("机器学习".toList))])] := by decide
  exact ⟨hmem, loadDictionary_key_length _ _ hmem⟩

/-- `C8`: for a line that looks like JSON (trimmed content starts with `{`
or `[`) but fails to parse (the parse oracle is `none`), `process_line` is
total and keeps the line: `jsonl` mode returns the line unchanged, `auto`
mode falls back to whole-line text translation, and in `text` mode the
parse result is never consulted (the output is whole-line text
translation regardless). -/
theorem processLine_malformed_json (tr : Translator) (dm : DeltaMode)
    (line : LC) (acc : DeltaAcc) (stats : Stats)
    (h : looksJson (rstripNl line) = true) :
    (processLine tr Mode.jsonl dm line none acc stats).1 = line ∧
      (processLine tr Mode.auto dm line none acc stats).1 =
        translateText tr (rstripNl line) ++
          (if line.getLast? == some '\n' then ['\n'] else []) ∧
      (∀ parsed, processLine tr Mode.text dm line parsed acc stats =
          processLine tr Mode.text dm line none acc stats) ∧
      (processLine tr Mode.text dm line none acc stats).1 =
        translateText tr (rstripNl line) ++
          (if line.getLast? == some '\n' then ['\n'] else []) := by
  refine ⟨?_, ?_, ?_, ?_⟩
  · simp [processLine, h]
  · simp [processLine, h]
  · intro parsed; simp [processLine, h]
  · simp [processLine, h]

/-- Witness for `processLine_malformed_json` on the unparseable line
`"[oops"`. -/
theorem processLine_malformed_json_witness :
    looksJson (rstripNl ("[oops".toList)) = true ∧
      (processLine (mkTranslator [] [] 2 8) Mode.jsonl DeltaMode.fullBuffer
        ("[oops".toList) none ⟨[]⟩ ⟨0, 0, 0⟩).1 = ("[oops".toList) :=
  ⟨by decide,
    (processLine_malformed_json (mkTranslator [] [] 2 8) DeltaMode.fullBuffer
      ("[oops".toList) ⟨[]⟩ ⟨0, 0, 0⟩ (by decide)).1⟩

theorem shouldTranslateField_false (key : LC) (et : Option LC) (p : List LC)
    (h1 : key ∉ targetStatusKeys)
    (h2 : key ∉ targetReasoningKeys)
    (hm1 : key ≠ ("message".toList))
    (hm2 : key ≠ ("text".toList))
    (hm3 : key ≠ ("delta".toList))
    (hs1 : key ≠ ("status_header".toList))
    (hs2 : key ≠ ("status_details".toList)) :
    shouldTranslateField key et p = false := by
  unfold shouldTranslateField
  cases et with
  | none =>
    simp [h1]
    exact ⟨⟨hs1, hs2⟩, fun _ => ⟨hm1, hm2, hm3⟩⟩
  | some e =>
    simp [h1, h2]
    exact ⟨fun _ _ => ⟨hm1, hm2, hm3⟩, ⟨hs1, hs2⟩, fun _ => ⟨hm1, hm2, hm3⟩⟩

theorem twalk_type_id_obj (tr : Translator) (dm : DeltaMode)
    (rid : Option LC) (acc : DeltaAcc) (t R : LC) :
    twalk tr dm rid acc none []
        (Json.obj (mkObj [(("type".toList), Json.str t), (("id".toList), Json.str R)])) =
      (Json.obj (mkObj [(("type".toList), Json.str t), (("id".toList), Json.str R)]),
        acc) := by
  have h1 : ∀ et p, shouldTranslateField ['t', 'y', 'p', 'e'] et p = false := fun et p =>
    shouldTranslateField_false _ et p (by decide) (by decide) (by decide) (by decide)
      (by decide) (by decide) (by decide)
  have h2 : ∀ et p, shouldTranslateField ['i', 'd'] et p = false := fun et p =>
    shouldTranslateField_false _ et p (by decide) (by decide) (by decide) (by decide)
      (by decide) (by decide) (by decide)
  simp [twalk, twalkFields, mkObj, h1, h2]

/-- `C6`: processing a reset-class event line for record id `R` (here an
event object with a reset `type` and id `R`) deletes every accumulator
buffer whose key belongs to `R` and none belonging to another record, so a
subsequent delta fragment for `R` is translated starting from an empty
buffer, with no residue from before the reset. -/
theorem processLine_reset_clears (tr : Translator) (mode : Mode)
    (line : LC) (bufs : List (LC × LC)) (stats : Stats) (t R : LC)
    (res : LC × DeltaAcc × Stats)
    (hm : mode = Mode.auto ∨ mode = Mode.jsonl)
    (hl : looksJson (rstripNl line) = true)
    (ht : resetEventTypes.contains t = true)
    (hR : R ≠ [])
    (hres : res = processLine tr mode DeltaMode.fullBuffer line
      (some (Json.obj (mkObj [(("type".toList), Json.str t), (("id".toList), Json.str R)])))
      ⟨bufs⟩ stats) :
    res.2.1.buffers = bufs.filter (fun kv => !(R ++ ['|']).isPrefixOf kv.1) ∧
      (∀ key, (R ++ ['|']).isPrefixOf key = true →
        lookupL key res.2.1.buffers = none) ∧
      (∀ key, (R ++ ['|']).isPrefixOf key = false →
        lookupL key res.2.1.buffers = lookupL key bufs) ∧
      (∀ rest delta,
        (rewriteToFullBuffer res.2.1 (R ++ '|' :: rest) delta tr).1 =
          translateText tr delta) := by
  have hdet : detectEventType
      (Json.obj (mkObj [(("type".toList), Json.str t), (("id".toList), Json.str R)])) =
      some t := by
    simp [detectEventType, jGet, mkObj, lookupObj, strField]
  have hrid : extractRecordId
      (Json.obj (mkObj [(("type".toList), Json.str t), (("id".toList), Json.str R)])) =
      some R := by
    have h1 : ¬ (("payload".toList : LC) = ("type".toList)) := by decide
    have h2 : ¬ (("payload".toList : LC) = ("id".toList)) := by decide
    have h3 : ¬ (("id".toList : LC) = ("type".toList)) := by decide
    simp [extractRecordId, jGet, mkObj, lookupObj, nonEmptyStr, h1, h2, h3, hR]
  have hdet' : detectEventType
      (Json.obj (mkObj [((['t', 'y', 'p', 'e'] : LC), Json.str t),
        ((['i', 'd'] : LC), Json.str R)])) = some t := hdet
  have hrid' : extractRecordId
      (Json.obj (mkObj [((['t', 'y', 'p', 'e'] : LC), Json.str t),
        ((['i', 'd'] : LC), Json.str R)])) = some R := hrid
  have ht' : t ∈ resetEventTypes := by
    simpa using ht
  have htw : ∀ (rid : Option LC) (acc2 : DeltaAcc),
      twalk tr DeltaMode.fullBuffer rid acc2 none []
        (Json.obj (mkObj [((['t', 'y', 'p', 'e'] : LC), Json.str t),
          ((['i', 'd'] : LC), Json.str R)])) =
        (Json.obj (mkObj [((['t', 'y', 'p', 'e'] : LC), Json.str t),
          ((['i', 'd'] : LC), Json.str R)]), acc2) := fun rid acc2 =>
    twalk_type_id_obj tr DeltaMode.fullBuffer rid acc2 t R
  have hbuf : res.2.1.buffers = bufs.filter (fun kv => !(R ++ ['|']).isPrefixOf kv.1) := by
    subst hres
    rcases hm with rfl | rfl <;>
      simp [processLine, hl, hdet', hrid', ht', htw, clearByRecordId]
  refine ⟨hbuf, ?_, ?_, ?_⟩
  · intro key hk
    rw [hbuf]
    exact lookupL_filter_out _ key hk bufs
  · intro key hk
    rw [hbuf]
    exact lookupL_filter_keep _ key hk bufs
  · intro rest delta
    have hk : (R ++ ['|']).isPrefixOf (R ++ '|' :: rest) = true := by
      have he : R ++ '|' :: rest = (R ++ ['|']) ++ rest := by simp
      rw [he, List.isPrefixOf_iff_prefix]
      exact List.prefix_append _ _
    have hnone : lookupL (R ++ '|' :: rest) res.2.1.buffers = none := by
      rw [hbuf]; exact lookupL_filter_out _ _ hk bufs
    simp [rewriteToFullBuffer, hnone]

/-- Witness for `processLine_reset_clears` on a concrete reset line with
two buffered records. -/
theorem processLine_reset_clears_witness :
    (processLine (mkTranslator [] [] 2 8) Mode.auto DeltaMode.fullBuffer
        ("[x".toList)
        (some (Json.obj (mkObj
          [(("type".toList), Json.str ("task_complete".toList)),
           (("id".toList), Json.str ("r1".toList))])))
        ⟨[(("r1|a".toList), ("b".toList)), (("r2|a".toList), ("c".toList))]⟩
        ⟨0, 0, 0⟩).2.1.buffers =
      [(("r2|a".toList), ("c".toList))] := by
  have h := processLine_reset_clears (mkTranslator [] [] 2 8) Mode.auto
    ("[x".toList) [(("r1|a".toList), ("b".toList)), (("r2|a".toList), ("c".toList))]
    ⟨0, 0, 0⟩ ("task_complete".toList) ("r1".toList) _
    (Or.inl rfl) (by decide) (by decide) (by decide) rfl
  rw [h.1]
  decide

end Codex
namespace Codex

theorem toNat_ofNat_small (n : Nat) (h : n < 55296) : (Char.ofNat n).toNat = n := by
  unfold Char.ofNat
  split
  · rfl
  · rename_i hv
    exact absurd (Or.inl h) hv

theorem natDigitsRev_lt (f : Nat) : ∀ n d, d ∈ natDigitsRev f n → d < 10 := by
  induction f with
  | zero =>
    intro n d hd
    simp [natDigitsRev] at hd
    omega
  | succ f ih =>
    intro n d hd
    by_cases h : n < 10
    · simp [natDigitsRev, h] at hd
      omega
    · simp [natDigitsRev, h] at hd
      rcases hd with rfl | hd
      · omega
      · exact ih _ _ hd

theorem natRepr_digit {n : Nat} {c : Char} (hc : c ∈ natRepr n) :
    isDigitCh c = true := by
  simp only [natRepr, List.mem_map, List.mem_reverse] at hc
  obtain ⟨d, hd, rfl⟩ := hc
  have hlt : d < 10 := natDigitsRev_lt n n d hd
  have ht : (Char.ofNat (48 + d)).toNat = 48 + d := toNat_ofNat_small _ (by omega)
  simp [isDigitCh, digitCh, ht]
  omega

theorem ph_chars {i : Nat} {c : Char} (hc : c ∈ ph i) : phChar c = true := by
  simp only [ph, List.mem_cons, List.mem_append, List.mem_singleton] at hc
  rcases hc with rfl | rfl | hc | rfl | h
  · decide
  · decide
  · simp [phChar, natRepr_digit hc]
  · decide
  · exact absurd h (List.not_mem_nil c)

theorem alpha_not_phChar {c : Char} (h : isAlphaCh c = true) : phChar c = false := by
  rcases hp : phChar c with _ | _
  · rfl
  · exfalso
    simp only [phChar, Bool.or_eq_true, beq_iff_eq] at hp
    rcases hp with ((rfl | rfl) | rfl) | hd
    · simp [isAlphaCh, isUpperCh, isLowerCh] at h
    · simp [isAlphaCh, isUpperCh, isLowerCh] at h
    · simp [isAlphaCh, isUpperCh, isLowerCh] at h
    · simp only [isAlphaCh, isUpperCh, isLowerCh, isDigitCh, Bool.or_eq_true,
        decide_eq_true_eq] at h hd
      omega

theorem prefix_append_split {p a b : LC} (h : p <+: a ++ b) :
    p <+: a ∨ ∃ p2, p = a ++ p2 ∧ p2 <+: b := by
  induction a generalizing p with
  | nil => exact Or.inr ⟨p, rfl, by simpa using h⟩
  | cons c a' ih =>
    cases p with
    | nil => exact Or.inl List.nil_prefix
    | cons d p' =>
      rw [List.cons_append, List.cons_prefix_cons] at h
      obtain ⟨rfl, h'⟩ := h
      rcases ih h' with h1 | ⟨p2, rfl, h2⟩
      · exact Or.inl (List.cons_prefix_cons.mpr ⟨rfl, h1⟩)
      · exact Or.inr ⟨p2, by simp, h2⟩

theorem infix_append_split {p a b : LC} (h : p <:+: a ++ b) :
    p <:+: a ∨ p <:+: b ∨
      ∃ a2 p2, p = a2 ++ p2 ∧ a2 ≠ [] ∧ a2 <:+ a ∧ p2 ≠ [] ∧ p2 <+: b := by
  induction a generalizing p with
  | nil => exact Or.inr (Or.inl (by simpa using h))
  | cons c a' ih =>
    rw [List.cons_append, List.infix_cons_iff] at h
    rcases h with h | h
    · rw [show c :: (a' ++ b) = (c :: a') ++ b from rfl] at h
      rcases prefix_append_split h with h1 | ⟨p2, rfl, h2⟩
      · exact Or.inl h1.isInfix
      · cases p2 with
        | nil => exact Or.inl (by simpa using List.infix_refl (c :: a'))
        | cons d p2' =>
          exact Or.inr (Or.inr ⟨c :: a', d :: p2', by simp, by simp,
            List.suffix_refl _, by simp, h2⟩)
    · rcases ih h with h1 | h1 | ⟨a2, p2, rfl, ha2, hs, hp2, hp⟩
      · exact Or.inl (h1.trans (List.suffix_cons c a').isInfix)
      · exact Or.inr (Or.inl h1)
      · exact Or.inr (Or.inr ⟨a2, p2, rfl, ha2, hs.trans (List.suffix_cons c a'), hp2, hp⟩)

end Codex
namespace Codex

theorem infixAppendL {p a b : LC} (h : p <:+: a) : p <:+: a ++ b :=
  h.trans (List.prefix_append a b).isInfix

theorem infixAppendR {p a b : LC} (h : p <:+: b) : p <:+: a ++ b :=
  h.trans (List.suffix_append a b).isInfix

theorem ph_ne_nil (i : Nat) : ph i ≠ [] := by simp [ph]

theorem ph_head (i : Nat) : ∃ w, ph i = '⟪' :: w := ⟨_, rfl⟩

theorem takeWhile_pred {α} (p : α → Bool) :
    ∀ (l : List α) (x : α), x ∈ l.takeWhile p → p x = true := by
  intro l
  induction l with
  | nil => intro x hx; simp [List.takeWhile] at hx
  | cons c cs ih =>
    intro x hx
    rcases hp : p c with _ | _
    · rw [List.takeWhile_cons, hp] at hx
      simp at hx
    · rw [List.takeWhile_cons, hp] at hx
      rcases List.mem_cons.mp hx with rfl | hx
      · exact hp
      · exact ih x hx

theorem alpha_tokCh {c : Char} (h : isAlphaCh c = true) : tokCh c = true := by
  simp [tokCh, isAlnumCh, h]

theorem tokExtend_spec (fuel : Nat) :
    ∀ s, s = (tokExtend fuel s).1 ++ (tokExtend fuel s).2 ∧
      ∀ c ∈ (tokExtend fuel s).1, tokCh c = true := by
  induction fuel with
  | zero => intro s; simp [tokExtend]
  | succ fuel ih =>
    intro s
    match s with
    | [] => simp [tokExtend]
    | [c] => simp [tokExtend]
    | sep :: c :: cs =>
      rw [tokExtend]
      rcases hcond : (sep == '-' || sep == Char.ofNat 39) && isAlnumCh c with _ | _
      · simp [hcond]
      · simp only [hcond, if_true]
        have hsep : tokCh sep = true := by
          have hcond' := hcond
          simp only [Bool.and_eq_true, Bool.or_eq_true, beq_iff_eq] at hcond'
          rcases hcond'.1 with rfl | rfl
          · decide
          · decide
        have hrun : ∀ d ∈ (c :: cs).takeWhile (fun d => isAlnumCh d), tokCh d = true :=
          fun d hd => by simp [tokCh, takeWhile_pred _ _ _ hd]
        obtain ⟨ihEq, ihCh⟩ := ih ((c :: cs).dropWhile (fun d => isAlnumCh d))
        constructor
        · simp only [List.cons_append, List.append_assoc]
          rw [← ihEq, List.takeWhile_append_dropWhile]
        · intro d hd
          rcases List.mem_cons.mp hd with rfl | hd
          · exact hsep
          · rcases List.mem_append.mp hd with hd | hd
            · exact hrun d hd
            · exact ihCh d hd

theorem tokenAt_spec {c : Char} (cs : LC) (hc : isAlphaCh c = true) :
    (c :: cs) = (tokenAt (c :: cs)).1 ++ (tokenAt (c :: cs)).2 ∧
      (∃ w, (tokenAt (c :: cs)).1 = c :: w) ∧
      ∀ d ∈ (tokenAt (c :: cs)).1, tokCh d = true := by
  obtain ⟨hEq, hCh⟩ := tokExtend_spec
    ((c :: cs).dropWhile (fun d => isAlphaCh d)).length
    ((c :: cs).dropWhile (fun d => isAlphaCh d))
  have htw : (c :: cs).takeWhile (fun d => isAlphaCh d) =
      c :: cs.takeWhile (fun d => isAlphaCh d) := by
    simp [List.takeWhile_cons, hc]
  simp only [tokenAt]
  refine ⟨?_, ?_, ?_⟩
  · rw [List.append_assoc, ← hEq, List.takeWhile_append_dropWhile]
  · exact ⟨cs.takeWhile (fun d => isAlphaCh d) ++
      (tokExtend ((c :: cs).dropWhile (fun d => isAlphaCh d)).length
        ((c :: cs).dropWhile (fun d => isAlphaCh d))).1,
      by rw [htw]; simp⟩
  · intro d hd
    rcases List.mem_append.mp hd with hd | hd
    · exact alpha_tokCh (takeWhile_pred _ _ _ hd)
    · exact hCh d hd

theorem tokenizeF_spec (fuel : Nat) :
    ∀ s, s.length ≤ fuel →
      s = (tokenizeF fuel s).1 ++ renderPairs (tokenizeF fuel s).2 ∧
        ∀ tg ∈ (tokenizeF fuel s).2,
          (∃ c w, tg.1 = c :: w ∧ isAlphaCh c = true) ∧
            ∀ d ∈ tg.1, tokCh d = true := by
  induction fuel with
  | zero =>
    intro s hs
    have : s = [] := List.length_eq_zero.mp (Nat.le_zero.mp hs)
    subst this
    simp [tokenizeF, renderPairs]
  | succ fuel ih =>
    intro s hs
    match s with
    | [] => simp [tokenizeF, renderPairs]
    | c :: cs =>
      rw [tokenizeF]
      rcases hc : isAlphaCh c with _ | _
      · simp only [Bool.false_eq_true, if_false]
        obtain ⟨ihEq, ihP⟩ := ih cs (by simpa using Nat.succ_le_succ_iff.mp hs)
        exact ⟨by simpa using ihEq, ihP⟩
      · simp only [if_true]
        obtain ⟨hEq, ⟨w, hw⟩, hCh⟩ := tokenAt_spec cs hc
        have hlen : (tokenAt (c :: cs)).2.length ≤ fuel := by
          have h1 : (c :: cs).length =
              (tokenAt (c :: cs)).1.length + (tokenAt (c :: cs)).2.length := by
            conv_lhs => rw [hEq]
            simp [List.length_append]
          have h2 : 1 ≤ (tokenAt (c :: cs)).1.length := by
            rw [hw]; simp
          simp only [List.length_cons] at h1 hs
          omega
        obtain ⟨ihEq, ihP⟩ := ih (tokenAt (c :: cs)).2 hlen
        constructor
        · simp only [renderPairs, List.nil_append]
          rw [List.append_assoc, ← ihEq, ← hEq]
        · intro tg htg
          rcases List.mem_cons.mp htg with rfl | htg
          · exact ⟨⟨c, w, hw, hc⟩, hCh⟩
          · exact ihP tg htg

end Codex
namespace Codex

theorem straddle_into_token {i : Nat} {p2 w : LC} {c1 : Char}
    (hsub : ∀ x ∈ p2, phChar x = true)
    (hp2 : p2 ≠ []) (hpre : p2 <+: c1 :: w) (hc1 : isAlphaCh c1 = true) :
    False := by
  cases p2 with
  | nil => exact hp2 rfl
  | cons x p2' =>
    have hx : x = c1 := (List.cons_prefix_cons.mp hpre).1
    subst hx
    have := hsub x (List.mem_cons_self x p2')
    rw [alpha_not_phChar hc1] at this
    exact Bool.false_ne_true this

theorem ph_mem_of_occ {i : Nat} {t : LC} (h : ph i <:+: t) : '⟪' ∈ t := by
  obtain ⟨w, hw⟩ := ph_head i
  exact h.mem (by rw [hw]; exact List.mem_cons_self _ _)

theorem ph_not_infix_token {i : Nat} {t : LC}
    (hCh : ∀ d ∈ t, tokCh d = true) (h : ph i <:+: t) : False := by
  have := hCh '⟪' (ph_mem_of_occ h)
  revert this
  decide

theorem ph_first_char {i : Nat} {a2 p2 : LC} (hpe : ph i = a2 ++ p2)
    (ha2 : a2 ≠ []) : '⟪' ∈ a2 := by
  obtain ⟨w, hw⟩ := ph_head i
  cases a2 with
  | nil => exact absurd rfl ha2
  | cons x a2' =>
    have hx : x = '⟪' := by
      have h1 : ('⟪' : Char) :: w = x :: (a2' ++ p2) := by
        rw [← hw, hpe, List.cons_append]
      injection h1 with h2 h3
      exact h2.symm
    rw [hx]
    exact List.mem_cons_self _ _

theorem ph_in_render {i : Nat} :
    ∀ prs : List (LC × LC),
      (∀ tg ∈ prs, (∃ c w, (tg : LC × LC).1 = c :: w ∧ isAlphaCh c = true) ∧
        ∀ d ∈ tg.1, tokCh d = true) →
      ph i <:+: renderPairs prs → ∃ tg ∈ prs, ph i <:+: tg.2 := by
  intro prs
  induction prs with
  | nil =>
    intro _ h
    simp [renderPairs] at h
    exact absurd h (ph_ne_nil i)
  | cons tg rest ih =>
    intro hP h
    obtain ⟨t, g⟩ := tg
    simp only [renderPairs] at h
    rw [List.append_assoc] at h
    have hhead := hP (t, g) (List.mem_cons_self _ _)
    rcases infix_append_split h with h1 | h1 | ⟨a2, p2, hpe, ha2, hsuf, hp2, hpre⟩
    · exact absurd h1 (ph_not_infix_token hhead.2)
    · rcases infix_append_split h1 with h2 | h2 | ⟨a2, p2, hpe, ha2, hsuf, hp2, hpre⟩
      · exact ⟨(t, g), List.mem_cons_self _ _, h2⟩
      · obtain ⟨tg', htg', hin⟩ := ih (fun tg htg => hP tg (List.mem_cons_of_mem _ htg)) h2
        exact ⟨tg', List.mem_cons_of_mem _ htg', hin⟩
      · match rest with
        | [] =>
          simp only [renderPairs] at hpre
          exact absurd (List.prefix_nil.mp hpre) hp2
        | (t', g') :: rest2 =>
          have hh := hP (t', g')
            (List.mem_cons_of_mem _ (List.mem_cons_self _ _))
          obtain ⟨⟨c1, w1, hct, hc1⟩, _⟩ := hh
          simp only [renderPairs] at hpre
          rw [List.append_assoc] at hpre
          rw [show (t' : LC) = c1 :: w1 from hct, List.cons_append] at hpre
          exact absurd (straddle_into_token (i := i)
            (fun x hx => ph_chars (i := i)
              (by rw [hpe]; exact List.mem_append_right a2 hx))
            hp2 hpre hc1) not_false
    · have hmem : '⟪' ∈ a2 := ph_first_char hpe ha2
      have hin : '⟪' ∈ t := hsuf.mem hmem
      exact absurd (hhead.2 '⟪' hin) (by decide)

end Codex
namespace Codex

theorem ph_localize {i : Nat} {g0 : LC} {prs : List (LC × LC)}
    (hP : ∀ tg ∈ prs, (∃ c w, (tg : LC × LC).1 = c :: w ∧ isAlphaCh c = true) ∧
      ∀ d ∈ tg.1, tokCh d = true)
    (h : ph i <:+: g0 ++ renderPairs prs) :
    ph i <:+: g0 ∨ ∃ tg ∈ prs, ph i <:+: tg.2 := by
  rcases infix_append_split h with h1 | h1 | ⟨a2, p2, hpe, ha2, hsuf, hp2, hpre⟩
  · exact Or.inl h1
  · exact Or.inr (ph_in_render prs hP h1)
  · match prs with
    | [] =>
      simp only [renderPairs] at hpre
      exact absurd (List.prefix_nil.mp hpre) hp2
    | (t', g') :: rest2 =>
      have hh := hP (t', g') (List.mem_cons_self _ _)
      obtain ⟨⟨c1, w1, hct, hc1⟩, _⟩ := hh
      simp only [renderPairs] at hpre
      rw [List.append_assoc] at hpre
      rw [show (t' : LC) = c1 :: w1 from hct, List.cons_append] at hpre
      exact absurd (straddle_into_token (i := i)
        (fun x hx => ph_chars (i := i)
          (by rw [hpe]; exact List.mem_append_right a2 hx))
        hp2 hpre hc1) not_false

theorem takeWindow_gaps :
    ∀ (w : Nat) (pairs : List (LC × LC)) ts lg rest,
      takeWindow w pairs = some (ts, lg, rest) →
      ∀ tg ∈ pairs, tg ∈ rest ∨ (tg : LC × LC).2 = lg ∨
        (tg.2 ≠ [] ∧ tg.2.all (fun c => isSpC c) = true) := by
  intro w
  induction w with
  | zero => intro pairs ts lg rest h; simp [takeWindow] at h
  | succ w ih =>
    intro pairs ts lg rest h
    match w, pairs with
    | _, [] => simp [takeWindow] at h
    | 0, (t, g) :: rest0 =>
      simp only [takeWindow, Option.some.injEq, Prod.mk.injEq] at h
      obtain ⟨rfl, rfl, rfl⟩ := h
      intro tg htg
      rcases List.mem_cons.mp htg with rfl | htg
      · exact Or.inr (Or.inl rfl)
      · exact Or.inl htg
    | w' + 1, (t, g) :: rest0 =>
      rw [takeWindow] at h
      rcases hcond : !g.isEmpty && g.all (fun c => isSpC c) with _ | _
      · rw [hcond] at h; simp at h
      · rw [hcond] at h
        simp only [if_true, Option.map_eq_some', Prod.mk.injEq] at h
        obtain ⟨⟨ts', lg', rest'⟩, hq, hz1, hz2, hz3⟩ := h
        subst hz1; subst hz2; subst hz3
        intro tg htg
        rcases List.mem_cons.mp htg with rfl | htg
        · refine Or.inr (Or.inr ?_)
          have hc := Bool.and_eq_true_iff.mp hcond
          exact ⟨by simpa using hc.1, hc.2⟩
        · rcases ih rest0 ts' lg' rest' hq tg htg with h1 | h1 | h1
          · exact Or.inl h1
          · exact Or.inr (Or.inl h1)
          · exact Or.inr (Or.inr h1)

end Codex
namespace Codex

theorem tryWindows_gaps (dict : List (LC × LC)) (minW : Int) :
    ∀ (fuel : Nat) (w : Int) pairs tgt lg rest,
      tryWindows dict minW fuel w pairs = some (tgt, lg, rest) →
      ∀ tg ∈ pairs, tg ∈ rest ∨ (tg : LC × LC).2 = lg ∨
        (tg.2 ≠ [] ∧ tg.2.all (fun c => isSpC c) = true) := by
  intro fuel
  induction fuel with
  | zero => intro w pairs tgt lg rest h; simp [tryWindows] at h
  | succ fuel ih =>
    intro w pairs tgt lg rest h
    rw [tryWindows] at h
    by_cases hlt : w < minW
    · rw [if_pos hlt] at h
      simp at h
    · rw [if_neg hlt] at h
      by_cases hw0 : w ≤ 0
      · rw [if_pos hw0] at h
        exact ih _ _ _ _ _ h
      · rw [if_neg hw0] at h
        rcases htk : takeWindow w.toNat pairs with _ | q
        · rw [htk] at h
          exact ih _ _ _ _ _ h
        · obtain ⟨ts, lg2, rest2⟩ := q
          rw [htk] at h
          dsimp only at h
          rcases hlk : lookupL (normalizeKey (joinSpace ts)) dict with _ | tgt2
          · rw [hlk] at h
            dsimp only at h
            exact ih _ _ _ _ _ h
          · rw [hlk] at h
            dsimp only at h
            by_cases hemp : tgt2.isEmpty = true
            · rw [if_pos hemp] at h
              exact ih _ _ _ _ _ h
            · rw [if_neg hemp] at h
              simp only [Option.some.injEq, Prod.mk.injEq] at h
              obtain ⟨rfl, rfl, rfl⟩ := h
              intro tg htg
              exact takeWindow_gaps _ pairs _ _ _ htk tg htg

theorem render_gap_inside :
    ∀ (prs : List (LC × LC)) tg, tg ∈ prs → (tg : LC × LC).2 <:+: renderPairs prs := by
  intro prs
  induction prs with
  | nil => intro tg htg; simp at htg
  | cons hd rest ih =>
    intro tg htg
    obtain ⟨t, g⟩ := hd
    simp only [renderPairs]
    rcases List.mem_cons.mp htg with rfl | htg
    · exact infixAppendL (infixAppendR (List.infix_refl _))
    · rw [List.append_assoc]
      exact infixAppendR (infixAppendR (ih tg htg))

theorem goDict_gap_preserved (dict : List (LC × LC)) (minW maxW : Int) (i : Nat) :
    ∀ (fuel : Nat) (prs : List (LC × LC)) tg, tg ∈ prs →
      ph i <:+: (tg : LC × LC).2 →
      ph i <:+: goDictF dict minW maxW fuel prs := by
  intro fuel
  induction fuel with
  | zero =>
    intro prs tg htg hin
    exact hin.trans (render_gap_inside prs tg htg)
  | succ fuel ih =>
    intro prs tg htg hin
    match prs with
    | [] => simp at htg
    | (t, g) :: rest =>
      simp only [goDictF]
      rcases htry : tryWindows dict minW
          ((min maxW ((((t, g) :: rest).length : Nat) : Int) - minW).toNat + 1)
          (min maxW ((((t, g) :: rest).length : Nat) : Int)) ((t, g) :: rest) with _ | q
      · rcases List.mem_cons.mp htg with rfl | htg2
        · exact infixAppendL (infixAppendR hin)
        · rw [List.append_assoc]
          exact infixAppendR (infixAppendR (ih rest tg htg2 hin))
      · obtain ⟨tgt, lastGap, r⟩ := q
        rcases tryWindows_gaps dict minW _ _ _ _ _ _ htry tg htg with h1 | h1 | ⟨hne, hsp⟩
        · exact infixAppendR (ih r tg h1 hin)
        · rw [← h1]
          exact infixAppendL (infixAppendR hin)
        · exfalso
          have hmem := ph_mem_of_occ hin
          have := List.all_eq_true.mp hsp '⟪' hmem
          revert this
          decide

theorem applyDictionary_preserves_ph (dict : List (LC × LC)) (minW maxW : Int)
    (text : LC) (i : Nat) (h : ph i <:+: text) :
    ph i <:+: applyDictionary dict minW maxW text := by
  unfold applyDictionary
  dsimp only
  split
  · exact h
  · obtain ⟨hEq, hP⟩ := tokenizeF_spec text.length text (Nat.le_refl _)
    rw [hEq] at h
    rcases ph_localize hP h with h1 | ⟨tg, htg, h1⟩
    · exact infixAppendL h1
    · exact infixAppendR (goDict_gap_preserved dict minW maxW i _ _ tg htg h1)

end Codex
namespace Codex

theorem matchCI_spec :
    ∀ (src s m r : LC), matchCI src s = some (m, r) →
      s = m ++ r ∧ lowStr m = lowStr src := by
  intro src
  induction src with
  | nil =>
    intro s m r h
    simp only [matchCI, Option.some.injEq, Prod.mk.injEq] at h
    obtain ⟨rfl, rfl⟩ := h
    simp [lowStr]
  | cons p ps ih =>
    intro s m r h
    match s with
    | [] => simp [matchCI] at h
    | c :: cs =>
      rw [matchCI] at h
      rcases hlow : lowCh p == lowCh c with _ | _
      · rw [hlow] at h; simp at h
      · rw [hlow] at h
        simp only [if_true, Option.map_eq_some', Prod.mk.injEq] at h
        obtain ⟨⟨m2, r2⟩, hq, hz1, hz2⟩ := h
        subst hz1; subst hz2
        obtain ⟨hEq, hLow⟩ := ih cs m2 r2 hq
        constructor
        · rw [hEq]; rfl
        · simp only [lowStr, List.map_cons]
          rw [show lowCh c = lowCh p from (eq_of_beq hlow).symm]
          simpa [lowStr] using hLow

theorem lowCh_toNat_upper {c : Char} (h : isUpperCh c = true) :
    (lowCh c).toNat = c.toNat + 32 := by
  simp only [isUpperCh, decide_eq_true_eq] at h
  simp only [lowCh, isUpperCh, decide_eq_true_eq, if_pos h]
  exact toNat_ofNat_small _ (by omega)

theorem lowCh_fix_phChar {x : Char} (hx : phChar x = true) : lowCh x = x := by
  simp only [phChar, Bool.or_eq_true, beq_iff_eq] at hx
  rcases hx with ((rfl | rfl) | rfl) | hd
  · decide
  · decide
  · decide
  · simp only [isDigitCh, decide_eq_true_eq] at hd
    simp only [lowCh, isUpperCh, decide_eq_true_eq]
    rw [if_neg (by omega)]

theorem lowCh_preimage_phChar {c' x : Char} (hx : phChar x = true)
    (h : lowCh c' = x) : c' = x := by
  have hrange : ¬ (97 ≤ x.toNat ∧ x.toNat ≤ 122) := by
    simp only [phChar, Bool.or_eq_true, beq_iff_eq] at hx
    rcases hx with ((rfl | rfl) | rfl) | hd
    · decide
    · decide
    · decide
    · simp only [isDigitCh, decide_eq_true_eq] at hd
      omega
  rcases hu : isUpperCh c' with _ | _
  · rw [← h]
    simp [lowCh, hu]
  · exfalso
    have := lowCh_toNat_upper hu
    rw [h] at this
    simp only [isUpperCh, decide_eq_true_eq] at hu
    exact hrange (by omega)

theorem ci_transfer {m src : LC} (hms : lowStr m = lowStr src) {x : Char}
    (hx : x ∈ m) (hpc : phChar x = true) : x ∈ src := by
  have h1 : lowCh x ∈ lowStr src := by
    rw [← hms]
    exact List.mem_map_of_mem lowCh hx
  rw [lowCh_fix_phChar hpc] at h1
  obtain ⟨c', hc', hlc⟩ := List.mem_map.mp h1
  rw [show c' = x from lowCh_preimage_phChar hpc hlc] at hc'
  exact hc'

theorem okSource_facts {src : LC} (hok : okOverrideSource src = true) :
    '⟪' ∉ src ∧ '⟫' ∉ src ∧ (∃ c ∈ src, ¬(c = '#' ∨ isDigitCh c = true)) := by
  simp only [okOverrideSource, Bool.and_eq_true, Bool.not_eq_eq_eq_not,
    Bool.not_true, List.any_eq_true] at hok
  obtain ⟨⟨h1, h2⟩, c, hc, hc2⟩ := hok
  refine ⟨?_, ?_, c, hc, ?_⟩
  · intro hmem
    simp at h1
    exact h1 hmem
  · intro hmem
    simp at h2
    exact h2 hmem
  · intro hor
    rcases hor with rfl | hd
    · simp at hc2
    · simp [hd] at hc2

end Codex
namespace Codex

theorem src_ne_nil_of_ok {src : LC} (hok : okOverrideSource src = true) :
    src ≠ [] := by
  obtain ⟨_, _, c, hc, _⟩ := okSource_facts hok
  intro h
  rw [h] at hc
  simp at hc

theorem noMatch_at_lAngle {src : LC} (hok : okOverrideSource src = true)
    (w : LC) : matchCI src ('⟪' :: w) = none := by
  obtain ⟨h1, _, _⟩ := okSource_facts hok
  match src with
  | [] => exact absurd rfl (src_ne_nil_of_ok hok)
  | p :: ps =>
    rw [matchCI]
    rcases hlow : lowCh p == lowCh '⟪' with _ | _
    · simp
    · exfalso
      have : p = '⟪' :=
        lowCh_preimage_phChar (by decide) (by rw [eq_of_beq hlow]; decide)
      exact h1 (this ▸ List.mem_cons_self p ps)

theorem noMatch_in_hash_digits {src : LC} (hok : okOverrideSource src = true)
    {u : LC} (hu : ∀ c ∈ u, c = '#' ∨ isDigitCh c = true) (b : LC) :
    matchCI src (u ++ '⟫' :: b) = none := by
  rcases hmc : matchCI src (u ++ '⟫' :: b) with _ | q
  · rfl
  · exfalso
    obtain ⟨m, r⟩ := q
    obtain ⟨hEq, hLow⟩ := matchCI_spec src _ m r hmc
    obtain ⟨h1, h2, c0, hc0, hc0p⟩ := okSource_facts hok
    have hmp : m <+: u ++ '⟫' :: b := ⟨r, hEq.symm⟩
    rcases prefix_append_split hmp with hcase | ⟨p2, hm2, hp2⟩
    · -- the matched text lies inside the hash/digit run: src is all #/digits
      have hall : ∀ c' ∈ src, c' = '#' ∨ isDigitCh c' = true := by
        intro c' hc'
        have hin : lowCh c' ∈ lowStr m := by
          rw [hLow]
          exact List.mem_map_of_mem lowCh hc'
        obtain ⟨x, hx, hlx⟩ := List.mem_map.mp hin
        have hxu : x = '#' ∨ isDigitCh x = true := hu x (hcase.mem hx)
        have hxfix : lowCh x = x := by
          rcases hxu with rfl | hd
          · decide
          · exact lowCh_fix_phChar (by simp [phChar, hd])
        have hcx : c' = x := by
          refine lowCh_preimage_phChar ?_ (by rw [← hlx, hxfix])
          rcases hxu with rfl | hd
          · decide
          · simp [phChar, hd]
        rw [hcx]
        exact hxu
      exact hc0p (hall c0 hc0)
    · -- the matched text reaches the closing delimiter
      cases p2 with
      | nil =>
        have : m <+: u := by rw [hm2]; simpa using List.prefix_refl u
        have hall : ∀ c' ∈ src, c' = '#' ∨ isDigitCh c' = true := by
          intro c' hc'
          have hin : lowCh c' ∈ lowStr m := by
            rw [hLow]
            exact List.mem_map_of_mem lowCh hc'
          obtain ⟨x, hx, hlx⟩ := List.mem_map.mp hin
          have hxu : x = '#' ∨ isDigitCh x = true := hu x (this.mem hx)
          have hxfix : lowCh x = x := by
            rcases hxu with rfl | hd
            · decide
            · exact lowCh_fix_phChar (by simp [phChar, hd])
          have hcx : c' = x := by
            refine lowCh_preimage_phChar ?_ (by rw [← hlx, hxfix])
            rcases hxu with rfl | hd
            · decide
            · simp [phChar, hd]
          rw [hcx]
          exact hxu
        exact hc0p (hall c0 hc0)
      | cons d p2' =>
        have hd : d = '⟫' := (List.cons_prefix_cons.mp hp2).1
        have hmem : '⟫' ∈ m := by
          rw [hm2, hd]
          exact List.mem_append_right u (List.mem_cons_self _ _)
        exact h2 (ci_transfer hLow hmem (by decide))

end Codex
namespace Codex

theorem noMatch_ph_positions {src : LC} (hok : okOverrideSource src = true)
    (i : Nat) (b : LC) :
    ∀ k, k < (ph i).length → matchCI src ((ph i).drop k ++ b) = none := by
  intro k hk
  match k with
  | 0 =>
    simp only [List.drop_zero, ph, List.cons_append]
    exact noMatch_at_lAngle hok _
  | k + 1 =>
    have hinner : ∀ c ∈ '#' :: natRepr i, c = '#' ∨ isDigitCh c = true := by
      intro c hc
      rcases List.mem_cons.mp hc with rfl | hc
      · exact Or.inl rfl
      · exact Or.inr (natRepr_digit hc)
    have hlen : k ≤ (natRepr i).length + 1 := by
      have h2 := hk
      simp only [ph, List.length_cons, List.length_append, List.length_cons,
        List.length_nil] at h2
      omega
    have hdrop : (ph i).drop (k + 1) = (('#' :: natRepr i).drop k) ++ ['⟫'] := by
      simp only [ph]
      rw [List.drop_succ_cons]
      rw [show ('#' :: (natRepr i ++ ['⟫'])) = ('#' :: natRepr i) ++ ['⟫'] by simp]
      rw [List.drop_append_of_le_length]
      simp only [List.length_cons]
      omega
    rw [hdrop, List.append_assoc, List.singleton_append]
    refine noMatch_in_hash_digits hok ?_ b
    intro c hc
    exact hinner c (List.mem_of_mem_drop hc)

theorem ovPassF_cross (src tgt : LC) :
    ∀ (u : LC) (fuel : Nat) (prev : Option Char) (b : LC),
      (∀ k, k < u.length → matchCI src (u.drop k ++ b) = none) →
      ∃ out2, ovPassF src tgt fuel prev (u ++ b) = u ++ out2 := by
  intro u
  induction u with
  | nil => intro fuel prev b _; exact ⟨_, rfl⟩
  | cons c u' ih =>
    intro fuel prev b hnm
    match fuel with
    | 0 => exact ⟨b, rfl⟩
    | fuel + 1 =>
      rw [List.cons_append]
      simp only [ovPassF]
      have h0 : matchCI src (c :: (u' ++ b)) = none := by
        have := hnm 0 (by simp)
        simpa using this
      have hnm' : ∀ k, k < u'.length → matchCI src (u'.drop k ++ b) = none := by
        intro k hk
        have := hnm (k + 1) (by simp; omega)
        simpa using this
      obtain ⟨out2, hout⟩ := ih fuel (some c) b hnm'
      refine ⟨out2, ?_⟩
      rcases hop : (match prev with | none => true | some p => !isWordCh p) with _ | _
      · simp [h0, hout]
      · simp [h0, hout]

end Codex
namespace Codex

theorem infix_cons_out {p : LC} {c : Char} {l : LC} (h : p <:+: l) :
    p <:+: c :: l :=
  h.trans (List.suffix_cons c l).isInfix

theorem ovPassF_cons (src tgt : LC) (fuel : Nat) (prev : Option Char)
    (c : Char) (cs : LC) :
    ovPassF src tgt (fuel + 1) prev (c :: cs) =
      match (if (match prev with | none => true | some p => !isWordCh p)
             then matchCI src (c :: cs) else none) with
      | some (m, r) =>
        if (match r with | [] => true | d :: _ => !isWordCh d)
        then tgt ++ ovPassF src tgt fuel m.getLast? r
        else c :: ovPassF src tgt fuel (some c) cs
      | none => c :: ovPassF src tgt fuel (some c) cs := rfl

theorem ovPassF_preserves_ph {src tgt : LC} (hok : okOverrideSource src = true)
    (i : Nat) :
    ∀ (fuel : Nat) (prev : Option Char) (a b : LC),
      ph i <:+: ovPassF src tgt fuel prev (a ++ ph i ++ b) := by
  intro fuel
  induction fuel with
  | zero =>
    intro prev a b
    exact infixAppendL (infixAppendR (List.infix_refl _))
  | succ fuel ih =>
    intro prev a b
    match a with
    | [] =>
      obtain ⟨out2, hout⟩ := ovPassF_cross src tgt (ph i) (fuel + 1) prev b
        (noMatch_ph_positions hok i b)
      simp only [List.nil_append]
      rw [hout]
      exact infixAppendL (List.infix_refl _)
    | c :: a' =>
      have hshape : ((c :: a') ++ ph i) ++ b = c :: ((a' ++ ph i) ++ b) := by
        simp
      rw [hshape, ovPassF_cons]
      have hskip :
          ph i <:+: c :: ovPassF src tgt fuel (some c) ((a' ++ ph i) ++ b) :=
        infix_cons_out (ih (some c) a' b)
      split
      case h_2 => exact hskip
      case h_1 m r heq =>
        split
        case isFalse => exact hskip
        case isTrue =>
          have hmc : matchCI src (c :: ((a' ++ ph i) ++ b)) = some (m, r) := by
            split at heq
            · exact heq
            · exact absurd heq (by simp)
          obtain ⟨hEq, hLow⟩ := matchCI_spec src _ m r hmc
          have hEq2 : (c :: a') ++ (ph i ++ b) = m ++ r := by
            simpa using hEq
          rcases List.append_eq_append_iff.mp hEq2 with
            ⟨w, h1, h2⟩ | ⟨w, h1, h2⟩
          · match w, h1, h2 with
            | [], h1, h2 =>
              have hr : r = ([] ++ ph i) ++ b := by
                simp only [List.nil_append] at h2 ⊢
                exact h2.symm
              rw [hr]
              exact infixAppendR (by
                have := ih m.getLast? [] b
                simpa using this)
            | d :: w', h1, h2 =>
              exfalso
              have h2' : '⟪' :: ('#' :: (natRepr i ++ '⟫' :: b)) =
                  d :: (w' ++ r) := by
                simpa [ph] using h2
              have hd : '⟪' = d := (List.cons.injEq _ _ _ _).mp h2' |>.1
              have hmem : '⟪' ∈ m := by
                rw [h1, ← hd]
                exact List.mem_append.mpr (Or.inr (List.mem_cons_self _ _))
              exact (okSource_facts hok).1 (ci_transfer hLow hmem (by decide))
          · have hr : r = (w ++ ph i) ++ b := by
              rw [h2]
              simp
            rw [hr]
            exact infixAppendR (ih m.getLast? w b)

theorem ovPass_preserves_ph {src tgt : LC} (hok : okOverrideSource src = true)
    {i : Nat} {s : LC} (h : ph i <:+: s) : ph i <:+: ovPass src tgt s := by
  obtain ⟨a, b, hab⟩ := h
  rw [← hab]
  exact ovPassF_preserves_ph hok i _ none a b

theorem ovFold_preserves_ph :
    ∀ (l : List (LC × LC)), (∀ p ∈ l, okOverrideSource p.1 = true) →
      ∀ {i : Nat} {s : LC}, ph i <:+: s →
        ph i <:+: l.foldl (fun out p => ovPass p.1 p.2 out) s := by
  intro l
  induction l with
  | nil => intro _ i s h; exact h
  | cons p l ih =>
    intro hok i s h
    simp only [List.foldl_cons]
    exact ih (fun q hq => hok q (List.mem_cons_of_mem p hq))
      (ovPass_preserves_ph (hok p (List.mem_cons_self p l)) h)

theorem applyOverrides_preserves_ph {tr : Translator}
    (hok : ∀ p ∈ tr.overridePatterns, okOverrideSource p.1 = true)
    {i : Nat} {s : LC} (h : ph i <:+: s) :
    ph i <:+: applyOverrides tr s :=
  ovFold_preserves_ph tr.overridePatterns hok h

end Codex
namespace Codex

/-- C2 (amended): the dictionary pass never alters a placeholder occurrence
(for every dictionary and every window bounds), and the override pass — hence
the whole overrides-then-dictionary translation of masked text — preserves
every placeholder occurrence provided each compiled override source contains
neither placeholder delimiter `⟪`/`⟫` and contains at least one character
that is neither `#` nor a digit. -/
theorem placeholders_survive_translation (i : Nat) :
    (∀ (dict : List (LC × LC)) (minW maxW : Int) (t : LC),
        ph i <:+: t → ph i <:+: applyDictionary dict minW maxW t) ∧
    (∀ tr : Translator,
        (∀ p ∈ tr.overridePatterns, okOverrideSource p.1 = true) →
        ∀ s : LC, ph i <:+: s →
          ph i <:+: applyDict tr (applyOverrides tr s)) := by
  constructor
  · intro dict minW maxW t h
    exact applyDictionary_preserves_ph dict minW maxW t i h
  · intro tr hoks s h
    exact applyDictionary_preserves_ph _ _ _ _ i
      (applyOverrides_preserves_ph hoks h)

theorem placeholders_survive_translation_witness :
    (ph 0 <:+: applyDictionary [(['m'], ['x'])] 1 2 (ph 0)) ∧
    (ph 0 <:+:
      applyDict (Translator.mk [(['m'], ['x'])] 1 1 [(['h','i'], ['y','o'])])
        (applyOverrides
          (Translator.mk [(['m'], ['x'])] 1 1 [(['h','i'], ['y','o'])])
          (ph 0))) :=
  ⟨(placeholders_survive_translation 0).1 [(['m'], ['x'])] 1 2 (ph 0)
      (List.infix_refl _),
   (placeholders_survive_translation 0).2
      (Translator.mk [(['m'], ['x'])] 1 1 [(['h','i'], ['y','o'])])
      (by decide) (ph 0) (List.infix_refl _)⟩

end Codex
namespace Codex

theorem natDigitsRev_val : ∀ (f n : Nat), n ≤ f → valRev (natDigitsRev f n) = n := by
  intro f
  induction f with
  | zero =>
    intro n hn
    have h0 : n = 0 := Nat.le_zero.mp hn
    subst h0
    decide
  | succ f ih =>
    intro n hn
    rw [natDigitsRev]
    split
    · simp [valRev]
    · rename_i h10
      simp only [valRev]
      rw [ih (n / 10) (by omega)]
      omega

theorem digitCh_inj {a b : Nat} (ha : a < 10) (hb : b < 10)
    (h : digitCh a = digitCh b) : a = b := by
  have h1 : (digitCh a).toNat = (digitCh b).toNat := by rw [h]
  rw [digitCh, digitCh, toNat_ofNat_small _ (by omega),
    toNat_ofNat_small _ (by omega)] at h1
  omega

theorem map_digitCh_inj : ∀ (xs ys : List Nat), (∀ d ∈ xs, d < 10) →
    (∀ d ∈ ys, d < 10) → xs.map digitCh = ys.map digitCh → xs = ys := by
  intro xs
  induction xs with
  | nil =>
    intro ys _ _ h
    cases ys with
    | nil => rfl
    | cons b ys => simp at h
  | cons a xs ih =>
    intro ys hx hy h
    cases ys with
    | nil => simp at h
    | cons b ys =>
      simp only [List.map_cons, List.cons.injEq] at h
      obtain ⟨h1, h2⟩ := h
      have hab : a = b := digitCh_inj (hx a (by simp)) (hy b (by simp)) h1
      rw [hab, ih ys (fun d hd => hx d (by simp [hd]))
        (fun d hd => hy d (by simp [hd])) h2]

theorem natRepr_inj {m n : Nat} (h : natRepr m = natRepr n) : m = n := by
  unfold natRepr at h
  have hm := map_digitCh_inj _ _
    (fun d hd => natDigitsRev_lt m m d (List.mem_reverse.mp hd))
    (fun d hd => natDigitsRev_lt n n d (List.mem_reverse.mp hd)) h
  have hrev := List.reverse_injective hm
  have h1 := natDigitsRev_val m m (Nat.le_refl m)
  have h2 := natDigitsRev_val n n (Nat.le_refl n)
  rw [hrev] at h1
  omega

theorem digit_ne_rAngle {c : Char} (h : isDigitCh c = true) : c ≠ '⟫' := by
  intro he
  subst he
  exact absurd h (by decide)

theorem digit_ne_lAngle {c : Char} (h : isDigitCh c = true) : c ≠ '⟪' := by
  intro he
  subst he
  exact absurd h (by decide)

theorem digits_marker_eq {v : LC} : ∀ (A B : LC), (∀ c ∈ A, isDigitCh c = true) →
    (∀ c ∈ B, isDigitCh c = true) → (A ++ ['⟫']) <+: (B ++ '⟫' :: v) → A = B := by
  intro A
  induction A with
  | nil =>
    intro B hA hB h
    cases B with
    | nil => rfl
    | cons b B' =>
      exfalso
      simp only [List.nil_append] at h
      rw [List.cons_append, List.cons_prefix_cons] at h
      exact digit_ne_rAngle (hB b (by simp)) h.1.symm
  | cons a A' ih =>
    intro B hA hB h
    cases B with
    | nil =>
      exfalso
      simp only [List.nil_append] at h
      rw [List.cons_append, List.cons_prefix_cons] at h
      exact digit_ne_rAngle (hA a (by simp)) h.1
    | cons b B' =>
      rw [List.cons_append, List.cons_append, List.cons_prefix_cons] at h
      obtain ⟨rfl, h2⟩ := h
      rw [ih B' (fun c hc => hA c (by simp [hc])) (fun c hc => hB c (by simp [hc])) h2]

theorem ph_prefix_eq {i k : Nat} {v : LC} (h : ph i <+: ph k ++ v) : i = k := by
  simp only [ph] at h
  rw [List.cons_append, List.cons_append, List.cons_prefix_cons] at h
  obtain ⟨_, h⟩ := h
  rw [List.cons_prefix_cons] at h
  obtain ⟨_, h⟩ := h
  rw [List.append_assoc] at h
  exact natRepr_inj (digits_marker_eq (natRepr i) (natRepr k)
    (fun c hc => natRepr_digit hc) (fun c hc => natRepr_digit hc)
    (by simpa using h))

theorem isPrefixOf_false_of_head {u : LC} {c : Char} {w : LC} {d : Char}
    (hne : d ≠ c) : (d :: u).isPrefixOf (c :: w) = false := by
  simp [List.isPrefixOf, hne]

theorem ph_tail_ne_lAngle {k : Nat} {c : Char}
    (hc : c ∈ ('#' :: (natRepr k ++ ['⟫']))) : c ≠ '⟪' := by
  rcases List.mem_cons.mp hc with rfl | hc2
  · decide
  · rcases List.mem_append.mp hc2 with hc3 | hc3
    · exact digit_ne_lAngle (natRepr_digit hc3)
    · simp only [List.mem_singleton] at hc3
      subst hc3
      decide

theorem noPhStart_ph {i k : Nat} (hik : i ≠ k) : NoPhStart (ph k) i := by
  intro j hj v
  match j with
  | 0 =>
    simp only [List.drop_zero]
    rcases hp : (ph i).isPrefixOf (ph k ++ v) with _ | _
    · rfl
    · exact absurd (ph_prefix_eq (List.isPrefixOf_iff_prefix.mp hp)) hik
  | j + 1 =>
    have hdrop : (ph k).drop (j + 1) = ('#' :: (natRepr k ++ ['⟫'])).drop j := by
      simp [ph]
    rw [hdrop]
    rcases he : ('#' :: (natRepr k ++ ['⟫'])).drop j with _ | ⟨c, w⟩
    · exfalso
      have hld : ('#' :: (natRepr k ++ ['⟫'])).length ≤ j :=
        List.drop_eq_nil_iff_le.mp he
      simp at hld
      simp [ph] at hj
      omega
    · have hcmem : c ∈ ('#' :: (natRepr k ++ ['⟫'])) :=
        List.mem_of_mem_drop (he ▸ List.mem_cons_self c w)
      rw [List.cons_append]
      exact isPrefixOf_false_of_head (Ne.symm (ph_tail_ne_lAngle hcmem))

theorem noPhStart_lit {c : Char} (hc : c ≠ '⟪') (i : Nat) : NoPhStart [c] i := by
  intro k hk v
  match k, hk with
  | 0, _ =>
    rw [List.drop_zero, List.singleton_append]
    exact isPrefixOf_false_of_head (Ne.symm hc)

theorem infix_to_drop {p t : LC} (hp : p ≠ []) (h : p <:+: t) :
    ∃ j, j < t.length ∧ p <+: t.drop j := by
  obtain ⟨pre, suf, hps⟩ := h
  refine ⟨pre.length, ?_, ?_⟩
  · rw [← hps]
    simp only [List.length_append]
    cases p with
    | nil => exact absurd rfl hp
    | cons x xs => simp; omega
  · rw [← hps, List.append_assoc, List.drop_left]
    exact List.prefix_append p suf

theorem suffix_to_drop {a t : LC} (ha : a ≠ []) (h : a <:+ t) :
    ∃ j, j < t.length ∧ t.drop j = a := by
  obtain ⟨pre, hp⟩ := h
  refine ⟨pre.length, ?_, ?_⟩
  · rw [← hp, List.length_append]
    cases a with
    | nil => exact absurd rfl ha
    | cons x xs => simp
  · rw [← hp, List.drop_left]

theorem segOk_no_ph {n : Nat} {t : LC} (hs : SegOk n t) :
    ∀ i, n ≤ i → ¬ ph i <:+: t := by
  induction hs with
  | nil =>
    intro i _ h
    rw [List.infix_nil] at h
    exact ph_ne_nil i h
  | lit hc _ ih =>
    intro i hi h
    rcases List.infix_cons_iff.mp h with h1 | h1
    · obtain ⟨w, hw⟩ := ph_head i
      rw [hw, List.cons_prefix_cons] at h1
      exact hc h1.1.symm
    · exact ih i hi h1
  | ref hk _ ih =>
    intro i hi h
    rename_i k s _
    have hik : i ≠ k := by omega
    rcases infix_append_split h with h1 | h1 | ⟨a2, p2, hpe, ha2, hsuf, hp2, hpre⟩
    · obtain ⟨j, hj, hjp⟩ := infix_to_drop (ph_ne_nil i) h1
      have := noPhStart_ph hik j hj []
      rw [List.append_nil] at this
      rw [List.isPrefixOf_iff_prefix.symm] at hjp
      rw [this] at hjp
      exact Bool.false_ne_true hjp
    · exact ih i hi h1
    · obtain ⟨j, hj, hjd⟩ := suffix_to_drop ha2 hsuf
      have hfull : ph i <+: (ph k).drop j ++ s := by
        rw [hjd, hpe]
        obtain ⟨tl, htl⟩ := hpre
        exact ⟨tl, by rw [List.append_assoc, htl]⟩
      have := noPhStart_ph hik j hj s
      rw [List.isPrefixOf_iff_prefix.symm] at hfull
      rw [this] at hfull
      exact Bool.false_ne_true hfull

end Codex
namespace Codex

theorem segOk_inv {n : Nat} {t : LC} (h : SegOk n t) :
    t = [] ∨
    (∃ c s, t = c :: s ∧ c ≠ '⟪' ∧ SegOk n s) ∨
    (∃ k s, t = ph k ++ s ∧ k < n ∧ SegOk n s) := by
  cases h with
  | nil => exact Or.inl rfl
  | lit hc hs => exact Or.inr (Or.inl ⟨_, _, rfl, hc, hs⟩)
  | ref hk hs => exact Or.inr (Or.inr ⟨_, _, rfl, hk, hs⟩)

theorem segOk_mono {n n' : Nat} (h : n ≤ n') {t : LC} (hs : SegOk n t) :
    SegOk n' t := by
  induction hs with
  | nil => exact SegOk.nil
  | lit hc _ ih => exact SegOk.lit hc ih
  | ref hk _ ih => exact SegOk.ref (by omega) ih

theorem segOk_cons_elim {n : Nat} {c : Char} {s : LC} (hc : c ≠ '⟪')
    (h : SegOk n (c :: s)) : SegOk n s := by
  rcases segOk_inv h with h0 | ⟨c2, s2, he, _, hs⟩ | ⟨k, s2, he, _, _⟩
  · simp at h0
  · rw [List.cons.injEq] at he
    rw [he.2]
    exact hs
  · exfalso
    obtain ⟨w, hw⟩ := ph_head k
    rw [hw, List.cons_append, List.cons.injEq] at he
    exact hc he.1

theorem segOk_append {n : Nat} {a b : LC} (ha : SegOk n a) (hb : SegOk n b) :
    SegOk n (a ++ b) := by
  induction ha with
  | nil => simpa using hb
  | lit hc _ ih => exact SegOk.lit hc ih
  | ref hk _ ih =>
    rw [List.append_assoc]
    exact SegOk.ref hk ih

theorem segOk_of_no_lAngle {n : Nat} : ∀ {a : LC}, '⟪' ∉ a → SegOk n a := by
  intro a
  induction a with
  | nil => intro _; exact SegOk.nil
  | cons c s ih =>
    intro h
    refine SegOk.lit ?_ (ih (fun hm => h (List.mem_cons_of_mem c hm)))
    intro he
    subst he
    exact h (List.mem_cons_self _ _)

theorem segOk_peel {n : Nat} :
    ∀ (a : LC), '⟪' ∉ a → ∀ {b : LC}, SegOk n (a ++ b) → SegOk n b := by
  intro a
  induction a with
  | nil => intro _ b h; simpa using h
  | cons c s ih =>
    intro hna b h
    have hc : c ≠ '⟪' := by
      intro he
      subst he
      exact hna (List.mem_cons_self _ _)
    exact ih (fun hm => hna (List.mem_cons_of_mem c hm)) (segOk_cons_elim hc h)

theorem replaceAllF_noocc {pat repl : LC} :
    ∀ (f : Nat) (v : LC), ¬ pat <:+: v → replaceAllF pat repl f v = v := by
  intro f
  induction f with
  | zero => intro v _; rfl
  | succ f ih =>
    intro v hno
    match v with
    | [] => rfl
    | c :: cs =>
      have hp : ¬ pat.isPrefixOf (c :: cs) = true := by
        intro hp
        exact hno (List.isPrefixOf_iff_prefix.mp hp).isInfix
      rw [replaceAllF, if_neg hp, ih cs (fun hin => hno (infix_cons_out hin))]

theorem replaceAll_head {p : Char} {ps r repl : LC} (hno : ¬ (p :: ps) <:+: r) :
    replaceAll ((p :: ps) ++ r) (p :: ps) repl = repl ++ r := by
  have hdrop : (p :: (ps ++ r)).drop (p :: ps).length = r := by
    simp only [List.length_cons]
    rw [List.drop_succ_cons, List.drop_left]
  have hpre : (p :: ps).isPrefixOf (p :: (ps ++ r)) = true := by
    rw [List.isPrefixOf_iff_prefix]
    exact ⟨r, rfl⟩
  rw [replaceAll, show ((p :: ps) ++ r) = p :: (ps ++ r) from rfl]
  simp only [List.length_cons]
  rw [replaceAllF, if_pos hpre, hdrop, replaceAllF_noocc _ r hno]

theorem replaceAllF_past {pat repl : LC} :
    ∀ (u : LC) (f : Nat) (v : LC),
      (∀ k, k < u.length → pat.isPrefixOf (u.drop k ++ v) = false) →
      replaceAllF pat repl (u.length + f) (u ++ v) =
        u ++ replaceAllF pat repl f v := by
  intro u
  induction u with
  | nil => intro f v _; simp
  | cons c u' ih =>
    intro f v hno
    have hhead : ¬ pat.isPrefixOf (c :: (u' ++ v)) = true := by
      have h0 := hno 0 (by simp)
      rw [List.drop_zero, show (c :: u') ++ v = c :: (u' ++ v) from rfl] at h0
      simp [h0]
    rw [show (c :: u') ++ v = c :: (u' ++ v) from rfl,
      show (c :: u').length + f = (u'.length + f) + 1 by simp; omega,
      replaceAllF, if_neg hhead,
      ih f v (fun k hk => by
        have := hno (k + 1) (by simp; omega)
        simpa using this)]
    rfl

theorem replaceAll_past {pat repl u v : LC}
    (hno : ∀ k, k < u.length → pat.isPrefixOf (u.drop k ++ v) = false) :
    replaceAll (u ++ v) pat repl = u ++ replaceAll v pat repl := by
  rw [replaceAll, replaceAll, List.length_append]
  exact replaceAllF_past u v.length v hno

theorem bandDown_past {ps : List LC} {lo : Nat} {w : LC}
    (hw : ∀ j, lo ≤ j → NoPhStart w j) :
    ∀ (d : Nat) (v : LC), bandDown ps lo d (w ++ v) = w ++ bandDown ps lo d v := by
  intro d
  induction d with
  | zero => intro v; rfl
  | succ d ih =>
    intro v
    rw [bandDown, bandDown,
      replaceAll_past (fun k hk => hw (lo + d) (by omega) k hk _), ih]

theorem bandDown_peel {ps : List LC} {lo : Nat} :
    ∀ (d : Nat) (u : LC),
      bandDown ps lo (d + 1) u =
        replaceAll (bandDown ps (lo + 1) d u) (ph lo) (ps.getD lo []) := by
  intro d
  induction d with
  | zero =>
    intro u
    simp [bandDown]
  | succ d ih =>
    intro u
    have h1 : bandDown ps lo (d + 1 + 1) u
        = bandDown ps lo (d + 1)
            (replaceAll u (ph (lo + (d + 1))) (ps.getD (lo + (d + 1)) [])) := rfl
    have h2 : bandDown ps (lo + 1) (d + 1) u
        = bandDown ps (lo + 1) d
            (replaceAll u (ph (lo + 1 + d)) (ps.getD (lo + 1 + d) [])) := rfl
    rw [h1, ih, h2, show lo + (d + 1) = lo + 1 + d by omega]

theorem restoreDown_split {ps : List LC} {lo : Nat} :
    ∀ (d : Nat) (t : LC),
      restoreDown ps (lo + d) t = restoreDown ps lo (bandDown ps lo d t) := by
  intro d
  induction d with
  | zero => intro t; rfl
  | succ d ih =>
    intro t
    rw [show lo + (d + 1) = (lo + d) + 1 by omega, restoreDown, ih]
    rfl

theorem restoreDown_agree {acc new : List LC} :
    ∀ (i : Nat), i ≤ acc.length → ∀ t,
      restoreDown (acc ++ new) i t = restoreDown acc i t := by
  intro i
  induction i with
  | zero => intro _ t; rfl
  | succ i ih =>
    intro hi t
    rw [restoreDown, restoreDown, List.getD_append _ _ _ _ (by omega),
      ih (by omega)]

theorem getD_append_self {acc : List LC} {m : LC} {rest : List LC} :
    (acc ++ m :: rest).getD acc.length [] = m := by
  rw [List.getD_append_right _ _ _ _ (Nat.le_refl _)]
  simp

end Codex
namespace Codex

theorem ph_len_pos (k : Nat) : 0 < (ph k).length := by simp [ph]

theorem lastPrev_nil (prev : Option Char) : lastPrev [] prev = prev := rfl

theorem lastPrev_cons (c : Char) (u : LC) (prev : Option Char) :
    lastPrev (c :: u) prev = lastPrev u (some c) := by
  cases u with
  | nil => simp [lastPrev]
  | cons d u' =>
    rcases h : (d :: u').getLast? with _ | x
    · exact absurd h (by simp)
    · simp [lastPrev, h]

theorem protPassF_cons (tryAt : Option Char → LC → Option (LC × LC))
    (fuel : Nat) (prev : Option Char) (c : Char) (cs : LC) (acc : List LC) :
    protPassF tryAt (fuel + 1) prev (c :: cs) acc =
      match tryAt prev (c :: cs) with
      | some (m, r) =>
        (ph acc.length ++ (protPassF tryAt fuel m.getLast? r (acc ++ [m])).1,
         (protPassF tryAt fuel m.getLast? r (acc ++ [m])).2)
      | none =>
        (c :: (protPassF tryAt fuel (some c) cs acc).1,
         (protPassF tryAt fuel (some c) cs acc).2) := rfl

theorem protPassF_cross_le (tryAt : Option Char → LC → Option (LC × LC)) :
    ∀ (u : LC) (fuel : Nat) (prev : Option Char) (b : LC) (acc : List LC),
      (∀ (p : Option Char) (k : Nat), k < u.length →
        tryAt p (u.drop k ++ b) = none) →
      u.length ≤ fuel →
      protPassF tryAt fuel prev (u ++ b) acc =
        ((u ++ (protPassF tryAt (fuel - u.length) (lastPrev u prev) b acc).1),
         (protPassF tryAt (fuel - u.length) (lastPrev u prev) b acc).2) := by
  intro u
  induction u with
  | nil =>
    intro fuel prev b acc _ _
    simp [lastPrev_nil]
  | cons c u' ih =>
    intro fuel prev b acc hnm hle
    cases fuel with
    | zero => exact absurd hle (by simp)
    | succ f =>
      have h0 : tryAt prev (c :: (u' ++ b)) = none := by
        have := hnm prev 0 (by simp)
        simpa using this
      have hstep : protPassF tryAt (f + 1) prev (c :: (u' ++ b)) acc
          = (c :: (protPassF tryAt f (some c) (u' ++ b) acc).1,
             (protPassF tryAt f (some c) (u' ++ b) acc).2) := by
        rw [protPassF_cons, h0]
      rw [show (c :: u') ++ b = c :: (u' ++ b) from rfl, hstep,
        ih f (some c) b acc (fun p k hk => by
          have := hnm p (k + 1) (by simp; omega)
          simpa using this) (by simp at hle; omega)]
      rw [lastPrev_cons]
      simp only [List.length_cons, Nat.succ_sub_succ]
      rfl

theorem protPassF_cross_gt (tryAt : Option Char → LC → Option (LC × LC)) :
    ∀ (u : LC) (fuel : Nat) (prev : Option Char) (b : LC) (acc : List LC),
      (∀ (p : Option Char) (k : Nat), k < u.length →
        tryAt p (u.drop k ++ b) = none) →
      fuel < u.length →
      protPassF tryAt fuel prev (u ++ b) acc = (u ++ b, acc) := by
  intro u
  induction u with
  | nil => intro fuel prev b acc _ h; exact absurd h (by simp)
  | cons c u' ih =>
    intro fuel prev b acc hnm hlt
    cases fuel with
    | zero => rfl
    | succ f =>
      have h0 : tryAt prev (c :: (u' ++ b)) = none := by
        have := hnm prev 0 (by simp)
        simpa using this
      have hstep : protPassF tryAt (f + 1) prev (c :: (u' ++ b)) acc
          = (c :: (protPassF tryAt f (some c) (u' ++ b) acc).1,
             (protPassF tryAt f (some c) (u' ++ b) acc).2) := by
        rw [protPassF_cons, h0]
      rw [show (c :: u') ++ b = c :: (u' ++ b) from rfl, hstep,
        ih f (some c) b acc (fun p k hk => by
          have := hnm p (k + 1) (by simp; omega)
          simpa using this) (by simp at hlt; omega)]

theorem ph_nomatch {tryAt : Option Char → LC → Option (LC × LC)}
    (H1 : ∀ (p : Option Char) (c : Char) (w : LC), phChar c = true →
      tryAt p (c :: w) = none)
    (k : Nat) (b : LC) :
    ∀ (p : Option Char) (j : Nat), j < (ph k).length →
      tryAt p ((ph k).drop j ++ b) = none := by
  intro p j hj
  rcases he : (ph k).drop j with _ | ⟨c, w⟩
  · exfalso
    have := List.drop_eq_nil_iff_le.mp he
    omega
  · rw [List.cons_append]
    exact H1 p c _ (ph_chars (List.mem_of_mem_drop (he ▸ List.mem_cons_self c w)))

end Codex
namespace Codex

theorem protPassF_restores
    (tryAt : Option Char → LC → Option (LC × LC))
    (H1 : ∀ (p : Option Char) (c : Char) (w : LC), phChar c = true →
      tryAt p (c :: w) = none)
    (H2 : ∀ (n : Nat) (p : Option Char) (t m r : LC), SegOk n t →
      tryAt p t = some (m, r) → t = m ++ r ∧ SegOk n m ∧ SegOk n r) :
    ∀ (fuel : Nat) (prev : Option Char) (t : LC) (acc : List LC),
      SegOk acc.length t →
      ∃ new : List LC,
        (protPassF tryAt fuel prev t acc).2 = acc ++ new ∧
        SegOk (acc.length + new.length) (protPassF tryAt fuel prev t acc).1 ∧
        bandDown (acc ++ new) acc.length new.length
          (protPassF tryAt fuel prev t acc).1 = t := by
  intro fuel
  induction fuel using Nat.strong_induction_on with
  | _ fuel ih =>
    intro prev t acc hseg
    cases fuel with
    | zero =>
      refine ⟨[], by simp [protPassF], by simpa using hseg, rfl⟩
    | succ f =>
      rcases segOk_inv hseg with h0 | ⟨c, s, he, hc, hs⟩ | ⟨k, s, he, hk, hs⟩
      · subst h0
        refine ⟨[], by simp [protPassF], ?_, ?_⟩
        · have : (protPassF tryAt (f + 1) prev [] acc).1 = [] := by
            simp [protPassF]
          rw [this]
          exact SegOk.nil
        · have : (protPassF tryAt (f + 1) prev [] acc).1 = [] := by
            simp [protPassF]
          rw [this]
          rfl
      · subst he
        rcases hmc : tryAt prev (c :: s) with _ | ⟨m, r⟩
        · have hstep : protPassF tryAt (f + 1) prev (c :: s) acc
              = (c :: (protPassF tryAt f (some c) s acc).1,
                 (protPassF tryAt f (some c) s acc).2) := by
            rw [protPassF_cons, hmc]
          obtain ⟨new, h1, h2, h3⟩ := ih f (by omega) (some c) s acc hs
          refine ⟨new, ?_, ?_, ?_⟩
          · rw [hstep]
            exact h1
          · rw [hstep]
            exact SegOk.lit hc h2
          · rw [hstep]
            have hcast : (c :: (protPassF tryAt f (some c) s acc).1)
                = [c] ++ (protPassF tryAt f (some c) s acc).1 := rfl
            rw [hcast, bandDown_past (fun j _ => noPhStart_lit hc j), h3]
            rfl
        · obtain ⟨hteq, hsm, hsr⟩ := H2 acc.length prev (c :: s) m r hseg hmc
          have hstep : protPassF tryAt (f + 1) prev (c :: s) acc
              = (ph acc.length ++
                   (protPassF tryAt f m.getLast? r (acc ++ [m])).1,
                 (protPassF tryAt f m.getLast? r (acc ++ [m])).2) := by
            rw [protPassF_cons, hmc]
          have hsr1 : SegOk (acc ++ [m]).length r := by
            rw [List.length_append]
            exact segOk_mono (by simp) hsr
          obtain ⟨new', h1, h2, h3⟩ := ih f (by omega) m.getLast? r (acc ++ [m]) hsr1
          refine ⟨m :: new', ?_, ?_, ?_⟩
          · rw [hstep, h1]
            simp
          · rw [hstep]
            rw [show acc.length + (m :: new').length
                = (acc ++ [m]).length + new'.length by simp; omega]
            exact SegOk.ref (by simp; omega) h2
          · rw [hstep]
            have hps : acc ++ m :: new' = (acc ++ [m]) ++ new' := by simp
            rw [hps]
            rw [show (m :: new').length = new'.length + 1 from rfl]
            rw [bandDown_peel]
            have hgd : ((acc ++ [m]) ++ new').getD acc.length [] = m := by
              rw [show (acc ++ [m]) ++ new' = acc ++ m :: new' by simp]
              exact getD_append_self
            rw [hgd]
            rw [bandDown_past (fun j hj => noPhStart_ph (by omega))]
            rw [show acc.length + 1 = (acc ++ [m]).length by simp]
            rw [h3]
            obtain ⟨w, hw⟩ := ph_head acc.length
            rw [hw, replaceAll_head (by
              rw [← hw]
              exact segOk_no_ph hsr acc.length (Nat.le_refl _)), ← hteq]
      · subst he
        by_cases hfu : (ph k).length ≤ f + 1
        · rw [protPassF_cross_le tryAt (ph k) (f + 1) prev s acc
            (ph_nomatch H1 k s) hfu]
          obtain ⟨new, h1, h2, h3⟩ := ih ((f + 1) - (ph k).length)
            (by have := ph_len_pos k; omega) (lastPrev (ph k) prev) s acc hs
          refine ⟨new, h1, ?_, ?_⟩
          · exact SegOk.ref (by omega) h2
          · rw [bandDown_past (fun j hj => noPhStart_ph (by omega)), h3]
        · rw [protPassF_cross_gt tryAt (ph k) (f + 1) prev s acc
            (ph_nomatch H1 k s) (by omega)]
          refine ⟨[], by simp, by simpa using hseg, rfl⟩

end Codex
namespace Codex

theorem takeWhile_all {α} (p : α → Bool) :
    ∀ (l l2 : List α), (∀ a ∈ l, p a = true) →
      (l ++ l2).takeWhile p = l ++ l2.takeWhile p := by
  intro l
  induction l with
  | nil => intro l2 _; rfl
  | cons a l ih =>
    intro l2 hall
    rw [List.cons_append, List.takeWhile_cons, hall a (by simp),
      ih l2 (fun b hb => hall b (by simp [hb]))]
    rfl

theorem dropWhile_all {α} (p : α → Bool) :
    ∀ (l l2 : List α), (∀ a ∈ l, p a = true) →
      (l ++ l2).dropWhile p = l2.dropWhile p := by
  intro l
  induction l with
  | nil => intro l2 _; rfl
  | cons a l ih =>
    intro l2 hall
    rw [List.cons_append, List.dropWhile_cons, hall a (by simp)]
    simp only [if_true]
    exact ih l2 (fun b hb => hall b (by simp [hb]))

theorem segOk_takeWhile_swallow {q : Char → Bool}
    (hq : ∀ c, phChar c = true → q c = true) {n : Nat} :
    ∀ {t : LC}, SegOk n t → SegOk n (t.takeWhile q) ∧ SegOk n (t.dropWhile q) := by
  intro t hs
  induction hs with
  | nil => exact ⟨SegOk.nil, SegOk.nil⟩
  | lit hc hsub ih =>
    rename_i c s
    rcases hqc : q c with _ | _
    · rw [List.takeWhile_cons, List.dropWhile_cons, hqc]
      exact ⟨SegOk.nil, SegOk.lit hc hsub⟩
    · rw [List.takeWhile_cons, List.dropWhile_cons, hqc]
      simp only [if_true]
      exact ⟨SegOk.lit hc ih.1, ih.2⟩
  | ref hk hsub ih =>
    rename_i k s
    have hall : ∀ a ∈ ph k, q a = true := fun a ha => hq a (ph_chars ha)
    rw [takeWhile_all q (ph k) s hall, dropWhile_all q (ph k) s hall]
    exact ⟨SegOk.ref hk ih.1, ih.2⟩

theorem segOk_dropWhile_block {q : Char → Bool} (hq : q '⟪' = false) {n : Nat} :
    ∀ {t : LC}, SegOk n t → SegOk n (t.dropWhile q) := by
  intro t hs
  induction hs with
  | nil => exact SegOk.nil
  | lit hc hsub ih =>
    rename_i c s
    rcases hqc : q c with _ | _
    · rw [List.dropWhile_cons, hqc]
      exact SegOk.lit hc hsub
    · rw [List.dropWhile_cons, hqc]
      simpa using ih
  | ref hk hsub ih =>
    rename_i k s
    obtain ⟨w, hw⟩ := ph_head k
    rw [hw, List.cons_append, List.dropWhile_cons, hq]
    rw [← List.cons_append, ← hw]
    exact SegOk.ref hk hsub

theorem no_lAngle_takeWhile {q : Char → Bool} (hq : q '⟪' = false) (t : LC) :
    '⟪' ∉ t.takeWhile q := by
  intro hm
  have h2 := takeWhile_pred q t '⟪' hm
  rw [hq] at h2
  exact Bool.false_ne_true h2

end Codex
namespace Codex

theorem phChar_ne {c : Char} (h : phChar c = true) (x : Char)
    (hx : phChar x = false) : c ≠ x := by
  intro he
  subst he
  rw [h] at hx
  exact Bool.false_ne_true hx.symm

theorem phChar_cases {c : Char} (h : phChar c = true) :
    c = '⟪' ∨ c = '#' ∨ c = '⟫' ∨ isDigitCh c = true := by
  simp only [phChar, Bool.or_eq_true, beq_iff_eq] at h
  tauto

theorem phChar_not_upper {c : Char} (h : phChar c = true) :
    isUpperCh c = false := by
  rcases phChar_cases h with rfl | rfl | rfl | hd
  · decide
  · decide
  · decide
  · simp only [isDigitCh, decide_eq_true_eq] at hd
    simp only [isUpperCh, decide_eq_false_iff_not]
    omega

theorem phChar_not_alpha {c : Char} (h : phChar c = true) :
    isAlphaCh c = false := by
  rcases phChar_cases h with rfl | rfl | rfl | hd
  · decide
  · decide
  · decide
  · simp only [isDigitCh, decide_eq_true_eq] at hd
    simp only [isAlphaCh, isUpperCh, isLowerCh, Bool.or_eq_false_iff,
      decide_eq_false_iff_not]
    omega

theorem tryFence_none (p : Option Char) {c : Char} (w : LC)
    (h : phChar c = true) : tryFence p (c :: w) = none := by
  have hne : c ≠ '`' := phChar_ne h '`' (by decide)
  simp only [tryFence]
  split
  · rename_i rest heq
    exfalso
    injection heq with h1 _
    exact hne h1
  · rfl

theorem tryInline_none (p : Option Char) {c : Char} (w : LC)
    (h : phChar c = true) : tryInline p (c :: w) = none := by
  have hne : c ≠ '`' := phChar_ne h '`' (by decide)
  simp only [tryInline]
  split
  · rename_i rest heq
    exfalso
    injection heq with h1 _
    exact hne h1
  · rfl

theorem tryUrl_none (p : Option Char) {c : Char} (w : LC)
    (h : phChar c = true) : tryUrl p (c :: w) = none := by
  have hne : c ≠ 'h' := phChar_ne h 'h' (by decide)
  have hbe : ('h' == c) = false := beq_eq_false_iff_ne.mpr (Ne.symm hne)
  simp [tryUrl, List.isPrefixOf, hbe]

theorem pathStart_none {c : Char} (w : LC) (h : phChar c = true) :
    pathStart (c :: w) = none := by
  have hal : isAlphaCh c = false := phChar_not_alpha h
  have h1 : c ≠ '~' := phChar_ne h '~' (by decide)
  have h2 : c ≠ '/' := phChar_ne h '/' (by decide)
  have h3 : c ≠ '.' := phChar_ne h '.' (by decide)
  simp only [pathStart]
  split
  · rename_i rest heq
    exfalso
    injection heq with ha _
    exact h1 ha
  · rename_i rest heq
    exfalso
    injection heq with ha _
    exact h2 ha
  · rename_i rest heq
    exfalso
    injection heq with ha _
    exact h3 ha
  · rename_i rest heq
    exfalso
    injection heq with ha _
    exact h3 ha
  · rename_i c2 rest heq
    injection heq with ha _
    rw [← ha, hal]
    rfl
  · rfl

theorem tryPath_none (p : Option Char) {c : Char} (w : LC)
    (h : phChar c = true) : tryPath p (c :: w) = none := by
  simp only [tryPath, pathStart_none w h]
  split <;> rfl

theorem tryFlag_none (p : Option Char) {c : Char} (w : LC)
    (h : phChar c = true) : tryFlag p (c :: w) = none := by
  have hne : c ≠ '-' := phChar_ne h '-' (by decide)
  simp only [tryFlag]
  split
  · split
    · rename_i c2 rest heq
      exfalso
      injection heq with h1 _
      exact hne h1
    · rename_i c2 rest heq
      exfalso
      injection heq with h1 _
      exact hne h1
    · rfl
  · rfl

theorem tryConst_none (p : Option Char) {c : Char} (w : LC)
    (h : phChar c = true) : tryConst p (c :: w) = none := by
  have hu : isUpperCh c = false := phChar_not_upper h
  have hne : c ≠ '_' := phChar_ne h '_' (by decide)
  have hbe : (c == '_') = false := beq_eq_false_iff_ne.mpr hne
  simp [tryConst, hu, hbe]

end Codex
namespace Codex

theorem digit_ne {c : Char} (hd : isDigitCh c = true) (x : Char)
    (hx : x.toNat < 48 ∨ 57 < x.toNat) : c ≠ x := by
  intro he
  subst he
  simp only [isDigitCh, decide_eq_true_eq] at hd
  omega

theorem digit_beq_false {c : Char} (hd : isDigitCh c = true) (x : Char)
    (hx : x.toNat < 48 ∨ 57 < x.toNat) : (c == x) = false :=
  beq_eq_false_iff_ne.mpr (digit_ne hd x hx)

theorem findTriple_spec :
    ∀ {t p1 p2 : LC}, findTriple t = some (p1, p2) →
      t = p1 ++ '`' :: '`' :: '`' :: p2 := by
  intro t
  induction t with
  | nil => intro p1 p2 h; simp [findTriple] at h
  | cons c cs ih =>
    intro p1 p2 h
    rw [findTriple] at h
    split at h
    · rename_i hpre
      simp only [Option.some.injEq, Prod.mk.injEq] at h
      obtain ⟨h1, h2⟩ := h
      obtain ⟨tl, htl⟩ := List.isPrefixOf_iff_prefix.mp hpre
      have hdrop : (c :: cs).drop 3 = tl := by rw [← htl]; rfl
      rw [← h1, ← h2, hdrop, List.nil_append, ← htl]
      rfl
    · rw [Option.map_eq_some'] at h
      obtain ⟨⟨q1, q2⟩, hq, heq⟩ := h
      simp only [Prod.mk.injEq] at heq
      obtain ⟨h1, h2⟩ := heq
      rw [← h1, ← h2, ih hq]
      rfl

theorem findTriple_cross : ∀ (u : LC), '`' ∉ u →
    ∀ (s : LC), findTriple (u ++ s) =
      (findTriple s).map (fun p => (u ++ p.1, p.2)) := by
  intro u
  induction u with
  | nil =>
    intro _ s
    rcases h : findTriple s with _ | ⟨q1, q2⟩ <;> simp [h]
  | cons c u' ih =>
    intro hu s
    have hc : c ≠ '`' := by
      intro he
      subst he
      exact hu (List.mem_cons_self _ _)
    have hbe : ('`' == c) = false := beq_eq_false_iff_ne.mpr (Ne.symm hc)
    have hcond : List.isPrefixOf ['`', '`', '`'] (c :: (u' ++ s)) = false := by
      simp [List.isPrefixOf, hbe]
    rw [List.cons_append, findTriple, if_neg (by simp [hcond]),
      ih (fun hm => hu (List.mem_cons_of_mem c hm)) s]
    rcases h : findTriple s with _ | ⟨q1, q2⟩ <;> simp [h]

theorem findTriple_segOk {n : Nat} :
    ∀ {t : LC}, SegOk n t → ∀ {p1 p2 : LC}, findTriple t = some (p1, p2) →
      SegOk n p1 ∧ SegOk n p2 := by
  intro t hs
  induction hs with
  | nil => intro p1 p2 h; simp [findTriple] at h
  | lit hc hsub ih =>
    rename_i c s
    intro p1 p2 h
    rw [findTriple] at h
    split at h
    · rename_i hpre
      simp only [Option.some.injEq, Prod.mk.injEq] at h
      obtain ⟨h1, h2⟩ := h
      obtain ⟨tl, htl⟩ := List.isPrefixOf_iff_prefix.mp hpre
      have hdrop : (c :: s).drop 3 = tl := by rw [← htl]; rfl
      constructor
      · rw [← h1]; exact SegOk.nil
      · rw [← h2, hdrop]
        refine segOk_peel ['`', '`', '`'] (by decide) ?_
        rw [htl]
        exact SegOk.lit hc hsub
    · rw [Option.map_eq_some'] at h
      obtain ⟨⟨q1, q2⟩, hq, heq⟩ := h
      simp only [Prod.mk.injEq] at heq
      obtain ⟨h1, h2⟩ := heq
      obtain ⟨hsq1, hsq2⟩ := ih hq
      exact ⟨by rw [← h1]; exact SegOk.lit hc hsq1, by rw [← h2]; exact hsq2⟩
  | ref hk hsub ih =>
    rename_i k s
    intro p1 p2 h
    have hbt : '`' ∉ ph k := by
      intro hm
      exact (phChar_ne (ph_chars hm) '`' (by decide)) rfl
    rw [findTriple_cross (ph k) hbt s, Option.map_eq_some'] at h
    obtain ⟨⟨q1, q2⟩, hq, heq⟩ := h
    simp only [Prod.mk.injEq] at heq
    obtain ⟨h1, h2⟩ := heq
    obtain ⟨hsq1, hsq2⟩ := ih hq
    exact ⟨by rw [← h1]; exact SegOk.ref hk hsq1, by rw [← h2]; exact hsq2⟩

theorem tryFence_h2 {n : Nat} {p : Option Char} {t m r : LC} (hs : SegOk n t)
    (h : tryFence p t = some (m, r)) :
    t = m ++ r ∧ SegOk n m ∧ SegOk n r := by
  simp only [tryFence] at h
  split at h
  · rename_i rest
    rw [Option.map_eq_some'] at h
    obtain ⟨⟨q1, q2⟩, hq, hpq⟩ := h
    simp only [Prod.mk.injEq] at hpq
    obtain ⟨h1, h2⟩ := hpq
    have hrest : SegOk n rest := segOk_peel ['`', '`', '`'] (by decide) hs
    obtain ⟨hsq1, hsq2⟩ := findTriple_segOk hrest hq
    have hspec := findTriple_spec hq
    refine ⟨?_, ?_, ?_⟩
    · rw [← h1, ← h2, hspec]
      simp
    · rw [← h1]
      refine SegOk.lit (by decide) (SegOk.lit (by decide) (SegOk.lit (by decide) ?_))
      exact segOk_append hsq1 (segOk_of_no_lAngle (by decide))
    · rw [← h2]; exact hsq2
  · simp at h

theorem phChar_inlineCh {c : Char} (h : phChar c = true) :
    (!(c == '`' || c == '\n')) = true := by
  have h1 : (c == '`') = false :=
    beq_eq_false_iff_ne.mpr (phChar_ne h '`' (by decide))
  have h2 : (c == '\n') = false :=
    beq_eq_false_iff_ne.mpr (phChar_ne h '\n' (by decide))
  simp [h1, h2]

theorem tryInline_h2 {n : Nat} {p : Option Char} {t m r : LC} (hs : SegOk n t)
    (h : tryInline p t = some (m, r)) :
    t = m ++ r ∧ SegOk n m ∧ SegOk n r := by
  simp only [tryInline] at h
  split at h
  · rename_i rest
    have hrest : SegOk n rest := segOk_cons_elim (by decide) hs
    obtain ⟨hrun, hdropOk⟩ :=
      segOk_takeWhile_swallow (fun c2 hc2 => phChar_inlineCh hc2) hrest
    split at h
    · rename_i tail heq2
      split at h
      · exact absurd h (by simp)
      · simp only [Option.some.injEq, Prod.mk.injEq] at h
        obtain ⟨h1, h2⟩ := h
        have htail : SegOk n tail := by
          rw [heq2] at hdropOk
          exact segOk_cons_elim (by decide) hdropOk
        refine ⟨?_, ?_, ?_⟩
        · rw [← h1, ← h2]
          conv_lhs => rw [← List.takeWhile_append_dropWhile
            (p := fun c2 => !(c2 == '`' || c2 == '\n')) (l := rest)]
          rw [heq2]
          simp
        · rw [← h1]
          refine SegOk.lit (by decide) ?_
          exact segOk_append hrun (segOk_of_no_lAngle (by decide))
        · rw [← h2]; exact htail
    · exact absurd h (by simp)
  · exact absurd h (by simp)

end Codex
namespace Codex

theorem phChar_urlCh {c : Char} (h : phChar c = true) : isUrlCh c = true := by
  rcases phChar_cases h with rfl | rfl | rfl | hd
  · decide
  · decide
  · decide
  · simp only [isUrlCh, isSpC,
      digit_beq_false hd ' ' (by decide), digit_beq_false hd '\t' (by decide),
      digit_beq_false hd '\n' (by decide), digit_beq_false hd '\r' (by decide),
      digit_beq_false hd (Char.ofNat 11) (by decide),
      digit_beq_false hd (Char.ofNat 12) (by decide),
      digit_beq_false hd ')' (by decide), digit_beq_false hd ']' (by decide),
      digit_beq_false hd '>' (by decide)]
    rfl

theorem phChar_pathCh {c : Char} (h : phChar c = true) : isPathCh c = true := by
  rcases phChar_cases h with rfl | rfl | rfl | hd
  · decide
  · decide
  · decide
  · simp only [isPathCh, isSpC,
      digit_beq_false hd ' ' (by decide), digit_beq_false hd '\t' (by decide),
      digit_beq_false hd '\n' (by decide), digit_beq_false hd '\r' (by decide),
      digit_beq_false hd (Char.ofNat 11) (by decide),
      digit_beq_false hd (Char.ofNat 12) (by decide),
      digit_beq_false hd '"' (by decide),
      digit_beq_false hd (Char.ofNat 39) (by decide),
      digit_beq_false hd '`' (by decide), digit_beq_false hd '<' (by decide),
      digit_beq_false hd '>' (by decide), digit_beq_false hd '|' (by decide)]
    rfl

theorem tryUrl_h2 {n : Nat} {p : Option Char} {t m r : LC} (hs : SegOk n t)
    (h : tryUrl p t = some (m, r)) :
    t = m ++ r ∧ SegOk n m ∧ SegOk n r := by
  simp only [tryUrl] at h
  split at h
  · rename_i hpre
    obtain ⟨tl, htl⟩ := List.isPrefixOf_iff_prefix.mp hpre
    have htake : t.take 8 = ['h','t','t','p','s',':','/','/'] := by
      rw [← htl]; rfl
    have hdrop : t.drop 8 = tl := by rw [← htl]; rfl
    split at h
    · exact absurd h (by simp)
    · simp only [Option.some.injEq, Prod.mk.injEq] at h
      obtain ⟨h1, h2⟩ := h
      have htlOk : SegOk n tl := by
        refine segOk_peel ['h','t','t','p','s',':','/','/'] (by decide) ?_
        rw [htl]
        exact hs
      obtain ⟨hrun, hrest⟩ :=
        segOk_takeWhile_swallow (fun c2 hc2 => phChar_urlCh hc2) htlOk
      refine ⟨?_, ?_, ?_⟩
      · rw [← h1, ← h2, htake, hdrop, ← htl, List.append_assoc,
          List.takeWhile_append_dropWhile]
      · rw [← h1, htake, hdrop]
        exact segOk_append (segOk_of_no_lAngle (by decide)) hrun
      · rw [← h2, hdrop]
        exact hrest
  · split at h
    · rename_i hpre
      obtain ⟨tl, htl⟩ := List.isPrefixOf_iff_prefix.mp hpre
      have htake : t.take 7 = ['h','t','t','p',':','/','/'] := by
        rw [← htl]; rfl
      have hdrop : t.drop 7 = tl := by rw [← htl]; rfl
      split at h
      · exact absurd h (by simp)
      · simp only [Option.some.injEq, Prod.mk.injEq] at h
        obtain ⟨h1, h2⟩ := h
        have htlOk : SegOk n tl := by
          refine segOk_peel ['h','t','t','p',':','/','/'] (by decide) ?_
          rw [htl]
          exact hs
        obtain ⟨hrun, hrest⟩ :=
          segOk_takeWhile_swallow (fun c2 hc2 => phChar_urlCh hc2) htlOk
        refine ⟨?_, ?_, ?_⟩
        · rw [← h1, ← h2, htake, hdrop, ← htl, List.append_assoc,
            List.takeWhile_append_dropWhile]
        · rw [← h1, htake, hdrop]
          exact segOk_append (segOk_of_no_lAngle (by decide)) hrun
        · rw [← h2, hdrop]
          exact hrest
    · exact absurd h (by simp)

theorem pathStart_spec {t st rest : LC} (h : pathStart t = some (st, rest)) :
    t = st ++ rest ∧ '⟪' ∉ st := by
  rw [pathStart.eq_def] at h
  split at h
  · simp only [Option.some.injEq, Prod.mk.injEq] at h
    obtain ⟨h1, h2⟩ := h
    rw [← h1, ← h2]
    exact ⟨rfl, by decide⟩
  · simp only [Option.some.injEq, Prod.mk.injEq] at h
    obtain ⟨h1, h2⟩ := h
    rw [← h1, ← h2]
    exact ⟨rfl, by decide⟩
  · simp only [Option.some.injEq, Prod.mk.injEq] at h
    obtain ⟨h1, h2⟩ := h
    rw [← h1, ← h2]
    exact ⟨rfl, by decide⟩
  · simp only [Option.some.injEq, Prod.mk.injEq] at h
    obtain ⟨h1, h2⟩ := h
    rw [← h1, ← h2]
    exact ⟨rfl, by decide⟩
  · rename_i c rest0
    split at h
    · rename_i hal
      simp only [Option.some.injEq, Prod.mk.injEq] at h
      obtain ⟨h1, h2⟩ := h
      rw [← h1, ← h2]
      refine ⟨rfl, ?_⟩
      intro hm
      rcases List.mem_cons.mp hm with he | hm2
      · rw [← he] at hal
        exact absurd hal (by decide)
      · revert hm2
        decide
    · exact absurd h (by simp)
  · exact absurd h (by simp)

theorem tryPath_h2 {n : Nat} {p : Option Char} {t m r : LC} (hs : SegOk n t)
    (h : tryPath p t = some (m, r)) :
    t = m ++ r ∧ SegOk n m ∧ SegOk n r := by
  simp only [tryPath] at h
  split at h
  · split at h
    · rename_i st rest0 heq
      simp only [Option.some.injEq, Prod.mk.injEq] at h
      obtain ⟨h1, h2⟩ := h
      obtain ⟨hteq, hnolt⟩ := pathStart_spec heq
      have hrest : SegOk n rest0 := segOk_peel st hnolt (hteq ▸ hs)
      obtain ⟨hrun, hrem⟩ :=
        segOk_takeWhile_swallow (fun c2 hc2 => phChar_pathCh hc2) hrest
      refine ⟨?_, ?_, ?_⟩
      · rw [← h1, ← h2, hteq, List.append_assoc, List.takeWhile_append_dropWhile]
      · rw [← h1]
        exact segOk_append (segOk_of_no_lAngle hnolt) hrun
      · rw [← h2]
        exact hrem
    · exact absurd h (by simp)
  · exact absurd h (by simp)

theorem alpha_ne_lAngle {c : Char} (h : isAlphaCh c = true) : c ≠ '⟪' := by
  intro he
  subst he
  exact absurd h (by decide)

theorem tryFlag_h2 {n : Nat} {p : Option Char} {t m r : LC} (hs : SegOk n t)
    (h : tryFlag p t = some (m, r)) :
    t = m ++ r ∧ SegOk n m ∧ SegOk n r := by
  simp only [tryFlag] at h
  split at h
  · split at h
    · rename_i c rest
      split at h
      · rename_i hal
        simp only [Option.some.injEq, Prod.mk.injEq] at h
        obtain ⟨h1, h2⟩ := h
        have hrest : SegOk n rest :=
          segOk_cons_elim (alpha_ne_lAngle hal)
            (segOk_cons_elim (by decide) (segOk_cons_elim (by decide) hs))
        refine ⟨?_, ?_, ?_⟩
        · rw [← h1, ← h2]
          simp [List.takeWhile_append_dropWhile]
        · rw [← h1]
          refine segOk_of_no_lAngle ?_
          intro hm
          rcases List.mem_cons.mp hm with he | hm2
          · exact absurd he.symm (by decide)
          rcases List.mem_cons.mp hm2 with he | hm3
          · exact absurd he.symm (by decide)
          rcases List.mem_cons.mp hm3 with he | hm4
          · exact alpha_ne_lAngle hal he.symm
          · have := takeWhile_pred _ rest '⟪' hm4
            exact absurd this (by decide)
        · rw [← h2]
          exact segOk_dropWhile_block (by decide) hrest
      · split at h
        · exact absurd h (by simp)
        · exact absurd h (by simp)
    · rename_i c rest hover
      split at h
      · rename_i hal
        simp only [Option.some.injEq, Prod.mk.injEq] at h
        obtain ⟨h1, h2⟩ := h
        have hrest : SegOk n rest :=
          segOk_cons_elim (alpha_ne_lAngle hal) (segOk_cons_elim (by decide) hs)
        refine ⟨?_, ?_, ?_⟩
        · rw [← h1, ← h2]
          simp [List.takeWhile_append_dropWhile]
        · rw [← h1]
          refine segOk_of_no_lAngle ?_
          intro hm
          rcases List.mem_cons.mp hm with he | hm2
          · exact absurd he.symm (by decide)
          rcases List.mem_cons.mp hm2 with he | hm3
          · exact alpha_ne_lAngle hal he.symm
          · have := takeWhile_pred _ rest '⟪' hm3
            exact absurd this (by decide)
        · rw [← h2]
          exact segOk_dropWhile_block (by decide) hrest
      · exact absurd h (by simp)
    · exact absurd h (by simp)
  · exact absurd h (by simp)

theorem tryConst_h2 {n : Nat} {p : Option Char} {t m r : LC} (hs : SegOk n t)
    (h : tryConst p t = some (m, r)) :
    t = m ++ r ∧ SegOk n m ∧ SegOk n r := by
  simp only [tryConst] at h
  split at h
  · split at h
    · rename_i c rest
      split at h
      · rename_i hup
        split at h
        · simp only [Option.some.injEq, Prod.mk.injEq] at h
          obtain ⟨h1, h2⟩ := h
          have hc : c ≠ '⟪' := by
            intro he
            subst he
            exact absurd hup (by decide)
          have hrest : SegOk n rest := segOk_cons_elim hc hs
          refine ⟨?_, ?_, ?_⟩
          · rw [← h1, ← h2]
            simp [List.takeWhile_append_dropWhile]
          · rw [← h1]
            refine segOk_of_no_lAngle ?_
            intro hm
            rcases List.mem_cons.mp hm with he | hm2
            · exact hc he.symm
            · have := takeWhile_pred _ rest '⟪' hm2
              exact absurd this (by decide)
          · rw [← h2]
            exact segOk_dropWhile_block (by decide) hrest
        · exact absurd h (by simp)
      · exact absurd h (by simp)
    · exact absurd h (by simp)
  · exact absurd h (by simp)

end Codex
namespace Codex

theorem protPass_restores
    (tryAt : Option Char → LC → Option (LC × LC))
    (H1 : ∀ (p : Option Char) (c : Char) (w : LC), phChar c = true →
      tryAt p (c :: w) = none)
    (H2 : ∀ (n : Nat) (p : Option Char) (t m r : LC), SegOk n t →
      tryAt p t = some (m, r) → t = m ++ r ∧ SegOk n m ∧ SegOk n r)
    (t : LC) (acc : List LC) (hseg : SegOk acc.length t) :
    SegOk (protPass tryAt t acc).2.length (protPass tryAt t acc).1 ∧
    restoreText (protPass tryAt t acc).1 (protPass tryAt t acc).2
      = restoreText t acc := by
  obtain ⟨new, h1, h2, h3⟩ :=
    protPassF_restores tryAt H1 H2 t.length none t acc hseg
  constructor
  · show SegOk (protPassF tryAt t.length none t acc).2.length
      (protPassF tryAt t.length none t acc).1
    rw [h1, List.length_append]
    exact h2
  · show restoreText (protPassF tryAt t.length none t acc).1
      (protPassF tryAt t.length none t acc).2 = restoreText t acc
    simp only [restoreText]
    rw [h1, List.length_append, restoreDown_split, h3,
      restoreDown_agree acc.length (Nat.le_refl _)]

/-- C1 (amended): for every input text `x` that does not contain the
placeholder delimiter character `⟪`, applying `_restore` to the result of
`_protect` reproduces `x` exactly — `restore(protect(x).masked_text,
protect(x).spans) = x` with no translation in between.  (The unrestricted
claim is refuted by `protect_restore_not_id`: an input that already
contains placeholder-shaped text is rewritten by the round trip.) -/
theorem protect_restore_roundtrip (x : LC) (hx : '⟪' ∉ x) :
    restoreText (protect x).1 (protect x).2 = x := by
  have h0 : SegOk ([] : List LC).length x := segOk_of_no_lAngle hx
  have h1 := protPass_restores tryFence (fun p c w hc => tryFence_none p w hc)
    (fun n p t m r hs h => tryFence_h2 hs h) x [] h0
  have h2 := protPass_restores tryInline (fun p c w hc => tryInline_none p w hc)
    (fun n p t m r hs h => tryInline_h2 hs h) _ _ h1.1
  have h3 := protPass_restores tryUrl (fun p c w hc => tryUrl_none p w hc)
    (fun n p t m r hs h => tryUrl_h2 hs h) _ _ h2.1
  have h4 := protPass_restores tryPath (fun p c w hc => tryPath_none p w hc)
    (fun n p t m r hs h => tryPath_h2 hs h) _ _ h3.1
  have h5 := protPass_restores tryFlag (fun p c w hc => tryFlag_none p w hc)
    (fun n p t m r hs h => tryFlag_h2 hs h) _ _ h4.1
  have h6 := protPass_restores tryConst (fun p c w hc => tryConst_none p w hc)
    (fun n p t m r hs h => tryConst_h2 hs h) _ _ h5.1
  simp only [protect]
  rw [h6.2, h5.2, h4.2, h3.2, h2.2, h1.2]
  rfl

end Codex

namespace Codex

theorem protect_restore_roundtrip_witness :
    ('⟪' ∉ ("run `git status` in /tmp --verbose MAX_RETRIES on https://x.io".toList)) ∧
    restoreText
      (protect ("run `git status` in /tmp --verbose MAX_RETRIES on https://x.io".toList)).1
      (protect ("run `git status` in /tmp --verbose MAX_RETRIES on https://x.io".toList)).2
      = "run `git status` in /tmp --verbose MAX_RETRIES on https://x.io".toList :=
  ⟨by decide, protect_restore_roundtrip _ (by decide)⟩

end Codex
